import Mathlib

/-!
# Verification of the oasis csv-exporter staking-rewards core

Shallow embedding of the computational core of the repository:
the fixed-point decimal formatter `toRose`, the binary-search snapshot
locator `findHistoryEntryForEpoch`, the pool-pricing helpers
`calculateShareValue` / `calculateTotalValue`, the share-position
reconstructor, the epoch sampler, the paginated fetcher, and the
rewards accrual engine of `fetchStakingRewardsTest`.

JavaScript `BigInt` values are embedded as `Int` (BigInt division
truncates toward zero, i.e. `Int.tdiv`); epochs are JS numbers holding
integers and are embedded as `Int` (`Math.floor` division is `Int.fdiv`).
Loops are embedded with explicit fuel that provably suffices.
-/

namespace CsvExporter


/-! ## Decimal digit strings (model of `BigInt.prototype.toString`) -/

/-- The character for a single decimal digit `d < 10`. -/
def digitChar (d : Nat) : Char := Char.ofNat (48 + d)

/-- Numeric value of a decimal digit character. -/
def charVal (c : Char) : Nat := c.toNat - 48

/-- Decimal digit characters of a natural number, most significant first.
This models `n.toString()` for a non-negative JS `BigInt`. -/
def natDigits (n : Nat) : List Char :=
  if _h : n < 10 then [digitChar n]
  else natDigits (n / 10) ++ [digitChar (n % 10)]
  termination_by n
  decreasing_by
    exact Nat.div_lt_self (by omega) (by omega)

/-- Decimal representation of an integer, with a leading `-` when negative.
Models `BigInt.prototype.toString`. -/
def intToChars (i : Int) : List Char :=
  if i < 0 then '-' :: natDigits i.natAbs else natDigits i.natAbs

/-- Value of a list of decimal digit characters (fold, most significant first). -/
def digitsVal (l : List Char) : Nat :=
  l.foldl (fun acc c => acc * 10 + charVal c) 0

/-- Drop all trailing `'0'` characters (model of `.replace(/0+$/, "")`). -/
def dropTrailingZeros (l : List Char) : List Char :=
  (l.reverse.dropWhile (fun c => c = '0')).reverse

/-! ## `toRose` — fixed-point decimal rendering (src/unnamed/part_001 lines 13-25) -/

/-- `ROSE_DECIMALS = 9`. -/
def ROSE_DECIMALS : Nat := 9

/-- Character-level body of `toRose`: pad the absolute decimal string to
`totalDecimals + 1` digits, split into integer and fractional parts, strip
trailing fractional zeros, re-attach the sign. -/
def toRoseChars (baseUnits : Int) (extraDecimals : Nat) : List Char :=
  let totalDecimals := ROSE_DECIMALS + extraDecimals
  let str := intToChars baseUnits
  let isNegative := str.head? = some '-'
  let absStr := if isNegative then str.tail else str
  let padded := List.replicate (totalDecimals + 1 - absStr.length) '0' ++ absStr
  let intPart0 := padded.take (padded.length - totalDecimals)
  let intPart := if intPart0.isEmpty then ['0'] else intPart0
  let decPart0 := dropTrailingZeros (padded.drop (padded.length - totalDecimals))
  let decPart := if decPart0.isEmpty then ['0'] else decPart0
  let result := if decPart = ['0'] then intPart else intPart ++ '.' :: decPart
  if isNegative then '-' :: result else result

/-- `toRose(baseUnits, extraDecimals)` — exact fixed-point rendering with
`ROSE_DECIMALS + extraDecimals` fractional digits. -/
def toRose (baseUnits : Int) (extraDecimals : Nat := 0) : String :=
  String.mk (toRoseChars baseUnits extraDecimals)

/-! ## A scaled-decimal parser, following the specification's words

Modelled from the spec: the spec's testable property "Idempotence of
formatting: `parse(format(amount)) == amount`" refers to a parser that is
not part of the source; this definition reads a decimal string back as an
integer scaled by `10 ^ totalDecimals`. -/

/-- Split a character list at the first `'.'`. -/
def splitAtDot : List Char → List Char × Option (List Char)
  | [] => ([], none)
  | c :: cs =>
      if c = '.' then ([], some cs)
      else
        let r := splitAtDot cs
        (c :: r.1, r.2)

/-- Parse an unsigned decimal string at scale `10 ^ td`. -/
def parseScaledNat (l : List Char) (td : Nat) : Int :=
  match splitAtDot l with
  | (ip, none) => (digitsVal ip : Int) * (10 : Int) ^ td
  | (ip, some dp) =>
      (digitsVal ip : Int) * (10 : Int) ^ td
        + (digitsVal dp : Int) * (10 : Int) ^ (td - dp.length)

/-- Parse a signed decimal string at scale `10 ^ td`
(`Modelled from the spec` — see the section comment above). -/
def parseScaled (s : String) (td : Nat) : Int :=
  match s.data with
  | [] => 0
  | c :: rest => if c = '-' then -(parseScaledNat rest td) else parseScaledNat s.data td

/-! ## Validator snapshots and the snapshot locator
(src/unnamed/part_001 lines 67-100) -/

/-- One validator-history snapshot: `{epoch, active_balance, active_shares}`.
The two amounts are JS `BigInt`s parsed from strings. -/
structure HistoryEntry where
  epoch : Int
  active_balance : Int
  active_shares : Int
  deriving DecidableEq, Repr

/-- `calculateShareValue(historyEntry)`:
`balance * 10^18 / shares`, `0` when `shares` is zero (BigInt division,
truncating toward zero). -/
def calculateShareValue (historyEntry : Option HistoryEntry) : Int :=
  match historyEntry with
  | none => Int.tdiv ((0 : Int) * (10 : Int) ^ (18 : Nat)) 1
  | some entry =>
      if entry.active_shares = 0 then 0
      else Int.tdiv (entry.active_balance * (10 : Int) ^ (18 : Nat)) entry.active_shares

/-- `calculateTotalValue(userShares, historyEntry)`:
`userShares * balance / shares`, `0` for a missing entry or zero shares. -/
def calculateTotalValue (userShares : Int) (historyEntry : Option HistoryEntry) : Int :=
  match historyEntry with
  | none => 0
  | some entry =>
      if entry.active_shares = 0 then 0
      else Int.tdiv (userShares * entry.active_balance) entry.active_shares

/-- The `while (low <= high)` loop of `findHistoryEntryForEpoch`, with fuel.
`mid = Math.floor((low + high) / 2)`; on `history[mid].epoch <= targetEpoch`
record the entry and move `low` up, otherwise move `high` down. -/
def findHistoryLoop (history : List HistoryEntry) (targetEpoch : Int) :
    Nat → Int → Int → Option HistoryEntry → Option HistoryEntry
  | 0, _, _, result => result
  | fuel + 1, low, high, result =>
      if low ≤ high then
        let mid := Int.fdiv (low + high) 2
        match history.get? mid.toNat with
        | some entry =>
            if entry.epoch ≤ targetEpoch then
              findHistoryLoop history targetEpoch fuel (mid + 1) high (some entry)
            else
              findHistoryLoop history targetEpoch fuel low (mid - 1) result
        | none => result
      else result

/-- `findHistoryEntryForEpoch(history, targetEpoch)` — binary search for the
rightmost entry with `epoch <= targetEpoch` (src/unnamed/part_001 lines 82-100). -/
def findHistoryEntryForEpoch (history : List HistoryEntry) (targetEpoch : Int) :
    Option HistoryEntry :=
  if history.length = 0 then none
  else
    findHistoryLoop history targetEpoch (history.length + 1) 0
      ((history.length : Int) - 1) none

/-! ## Epoch sampler (src/unnamed/part_001 lines 240-255) -/

/-- The `for (let e = startEpoch + step; e <= endEpoch; e += step)` loop,
with fuel: collect `e, e + step, e + 2*step, …` while `e ≤ endEpoch`. -/
def stepSamples (endEpoch step : Int) : Nat → Int → List Int
  | 0, _ => []
  | fuel + 1, e => if e ≤ endEpoch then e :: stepSamples endEpoch step fuel (e + step) else []

/-- `epochsToProcess`: `"year"` granularity is the single sample `[endEpoch]`;
any other granularity uses `step = max(1, Math.floor(totalEpochs / 12))`,
samples `startEpoch + step, startEpoch + 2*step, …` while `≤ endEpoch`, and a
final forced `endEpoch` when the stepped sequence is empty or does not end
there. -/
def epochsToProcess (startEpoch endEpoch : Int) (granularity : String) : List Int :=
  if granularity = "year" then [endEpoch]
  else
    let totalEpochs := endEpoch - startEpoch + 1
    let step := max 1 (Int.fdiv totalEpochs 12)
    let stepped :=
      stepSamples endEpoch step ((endEpoch - startEpoch).toNat + 1) (startEpoch + step)
    if stepped.isEmpty ∨ stepped.getLast? ≠ some endEpoch then stepped ++ [endEpoch]
    else stepped

/-- The epoch sampler as the specification words it (§4.5): the stepped
ascending sequence in closed form, with the final sample forced to
`endEpoch` when the stepped sequence does not already land there. -/
def monthSamplesSpec (startEpoch endEpoch : Int) : List Int :=
  let step := max 1 (Int.fdiv (endEpoch - startEpoch + 1) 12)
  let k := (endEpoch - startEpoch).toNat / step.toNat
  let stepped := (List.range k).map (fun (i : Nat) => startEpoch + ((i : Int) + 1) * step)
  if stepped.getLast? = some endEpoch then stepped else stepped ++ [endEpoch]

/-! ## Share-position reconstructor (src/unnamed/part_001 lines 177-191)

Per validator: start from the current share count, subtract `newShares` for
each relevant Add event (clamping to zero after each subtraction), then add
`debondingShares` for each relevant Debond event. -/

/-- The reconstructor, for one validator's scalar share count. -/
def reconstructShares (current : Int) (addShares debondShares : List Int) : Int :=
  let afterAdds :=
    addShares.foldl (fun acc sh => let x := acc - sh; if x < 0 then 0 else x) current
  debondShares.foldl (fun acc sh => acc + sh) afterAdds

/-- The reconstructor as the claim words it: current count minus the sum of
all Add `newShares` plus the sum of all Debond `debondingShares`, clamped to
zero once at the end if negative. -/
def reconstructSharesSpec (current : Int) (addShares debondShares : List Int) : Int :=
  let x := current - addShares.sum + debondShares.sum
  if x < 0 then 0 else x

/-! ## Paginated fetch

Two variants exist in the repository.  `src/src/utils.js` lines 16-48 break
when a page is short **or** when `offset + pageItems.length >=
(total_count || 0)`, and separately track `is_total_count_clipped`.
`src/unnamed/part_001` lines 31-55 break only on a short page.
Responses are embedded as a sequence indexed by request number. -/

/-- One page response: `{<itemsKey>: items, total_count, is_total_count_clipped}`
(a missing `total_count` is already folded to `0`, as `|| 0` does). -/
structure PageResponse (α : Type) where
  items : List α
  total_count : Nat
  clipped : Bool

/-- The `while (true)` loop of part_001's `paginatedFetch`, with fuel.
Returns the accumulated items and the number of requests made, or `none`
when the fuel runs out before a short page is seen. -/
def paginatedFetchGo {α : Type} (pages : Nat → PageResponse α) (limit : Nat) :
    Nat → Nat → Nat → List α → Option (List α × Nat)
  | 0, _, _, _ => none
  | fuel + 1, i, offset, acc =>
      let pageItems := (pages i).items
      let acc' := acc ++ pageItems
      if pageItems.length < limit then some (acc', i + 1)
      else paginatedFetchGo pages limit fuel (i + 1) (offset + pageItems.length) acc'

/-- `paginatedFetch` of src/unnamed/part_001: start at offset 0 with no items. -/
def paginatedFetch {α : Type} (pages : Nat → PageResponse α) (limit : Nat) (fuel : Nat) :
    Option (List α × Nat) :=
  paginatedFetchGo pages limit fuel 0 0 []

/-- The `while (true)` loop of the exported `paginatedFetch` of
src/src/utils.js, with fuel: additionally breaks when
`offset + pageItems.length >= total_count` and tracks `wasClipped`. -/
def paginatedFetchUtilsGo {α : Type} (pages : Nat → PageResponse α) (limit : Nat) :
    Nat → Nat → Nat → List α → Bool → Option (List α × Bool × Nat)
  | 0, _, _, _, _ => none
  | fuel + 1, i, offset, acc, wasClipped =>
      let resp := pages i
      let pageItems := resp.items
      let acc' := acc ++ pageItems
      let wasClipped' := wasClipped || resp.clipped
      if pageItems.length < limit ∨ resp.total_count ≤ offset + pageItems.length then
        some (acc', wasClipped', i + 1)
      else paginatedFetchUtilsGo pages limit fuel (i + 1) (offset + pageItems.length) acc' wasClipped'

/-- `paginatedFetch` of src/src/utils.js: start at offset 0, no items,
`wasClipped = false`. -/
def paginatedFetchUtils {α : Type} (pages : Nat → PageResponse α) (limit : Nat) (fuel : Nat) :
    Option (List α × Bool × Nat) :=
  paginatedFetchUtilsGo pages limit fuel 0 0 [] false

/-! ## Rewards accrual engine (src/unnamed/part_001 lines 217-363) -/

/-- Event kind: `staking.escrow.add` or `staking.escrow.debonding_start`. -/
inductive EvType where
  | add
  | debond
  deriving DecidableEq, Repr

/-- One entry of `eventsByEpoch`: `{type, validator, shares, amount}`
(`shares` is `new_shares` for an Add, `debonding_shares` for a Debond). -/
structure Ev where
  type : EvType
  validator : String
  shares : Int
  amount : Int
  deriving DecidableEq, Repr

/-- Per-validator accrual state:
`{shares, prevTotalValue, periodDelegationValue, periodUndelegationValue}`. -/
structure ValidatorState where
  shares : Int
  prevTotalValue : Int
  periodDelegationValue : Int
  periodUndelegationValue : Int
  deriving DecidableEq, Repr

/-- One emitted result row (lines 338-353), including the debug fields. -/
structure RewardRow where
  start_timestamp : String
  end_timestamp : String
  start_epoch : Int
  end_epoch : Int
  validator : String
  shares : String
  share_price : String
  delegation_value : String
  rewards : String
  debugPrevTotalValue : Int
  debugTotalValue : Int
  debugPeriodDelegationValue : Int
  debugPeriodUndelegationValue : Int
  deriving DecidableEq, Repr

/-- The epochs `lastProcessedEpoch + 1, …, epoch` of the inner
`for (let e = lastProcessedEpoch + 1; e <= epoch; e++)` loop. -/
def intRange (lo hi : Int) : List Int :=
  (List.range (hi - lo).toNat).map (fun (i : Nat) => lo + 1 + (i : Int))

/-- Apply one event (lines 298-315): skip events of untracked validators;
an Add increments `shares` and accumulates the snapshot-priced delegation
value; a Debond decrements `shares` (clamping at zero) and accumulates the
snapshot-priced undelegation value of the full `debondingShares`. -/
def applyEventToState (histories : String → List HistoryEntry) (validators : List String)
    (e : Int) (σ : String → ValidatorState) (ev : Ev) : String → ValidatorState :=
  if ev.validator ∈ validators then
    let state := σ ev.validator
    let historyEntry := findHistoryEntryForEpoch (histories ev.validator) e
    let state' :=
      match ev.type with
      | EvType.add =>
          { state with
            shares := state.shares + ev.shares
            periodDelegationValue :=
              state.periodDelegationValue + calculateTotalValue ev.shares historyEntry }
      | EvType.debond =>
          let s0 := state.shares - ev.shares
          let s1 := if s0 < 0 then 0 else s0
          { state with
            shares := s1
            periodUndelegationValue :=
              state.periodUndelegationValue + calculateTotalValue ev.shares historyEntry }
    fun v => if v = ev.validator then state' else σ v
  else σ

/-- Apply all events of the epochs in `(lastProcessedEpoch, epoch]`
(lines 296-316). -/
def applyEventsInRange (histories : String → List HistoryEntry)
    (eventsByEpoch : Int → List Ev) (validators : List String)
    (σ : String → ValidatorState) (lastProcessedEpoch epoch : Int) :
    String → ValidatorState :=
  (intRange lastProcessedEpoch epoch).foldl
    (fun σ' e => (eventsByEpoch e).foldl (applyEventToState histories validators e) σ')
    σ

/-- Emit a row for one validator at a sample epoch (lines 321-359): skip a
fully exited position (`shares == 0 && prevTotalValue == 0`), skip when no
snapshot is located; otherwise emit the row and reset
`prevTotalValue`/accumulators. -/
def emitRowForValidator (histories : String → List HistoryEntry) (startEpoch : Int)
    (startTs : String) (epoch : Int) (timestamp : String)
    (acc : (String → ValidatorState) × List RewardRow) (validator : String) :
    (String → ValidatorState) × List RewardRow :=
  let σ := acc.1
  let state := σ validator
  if state.shares = 0 ∧ state.prevTotalValue = 0 then acc
  else
    match findHistoryEntryForEpoch (histories validator) epoch with
    | none => acc
    | some historyEntry =>
        let shareValueScaled := calculateShareValue (some historyEntry)
        let totalValue := calculateTotalValue state.shares (some historyEntry)
        let earned := totalValue - state.prevTotalValue
          - state.periodDelegationValue + state.periodUndelegationValue
        let row : RewardRow :=
          { start_timestamp := startTs
            end_timestamp := timestamp
            start_epoch := startEpoch
            end_epoch := epoch
            validator := validator
            shares := String.mk (intToChars state.shares)
            share_price := toRose shareValueScaled 18
            delegation_value := toRose totalValue
            rewards := toRose earned
            debugPrevTotalValue := state.prevTotalValue
            debugTotalValue := totalValue
            debugPeriodDelegationValue := state.periodDelegationValue
            debugPeriodUndelegationValue := state.periodUndelegationValue }
        let state' :=
          { state with
            prevTotalValue := totalValue
            periodDelegationValue := 0
            periodUndelegationValue := 0 }
        ((fun v => if v = validator then state' else σ v), acc.2 ++ [row])

/-- The per-sample output loop over all validators (lines 320-359). -/
def emitRowsForEpoch (histories : String → List HistoryEntry) (startEpoch : Int)
    (startTs : String) (epoch : Int) (timestamp : String) (validators : List String)
    (σ : String → ValidatorState) : (String → ValidatorState) × List RewardRow :=
  validators.foldl (emitRowForValidator histories startEpoch startTs epoch timestamp) (σ, [])

/-- The running state of the main `for (const epoch of epochsToProcess)` loop. -/
structure RunState where
  σ : String → ValidatorState
  lastProcessedEpoch : Int
  results : List RewardRow

/-- One iteration of the main loop (lines 291-360): skip the sample when its
timestamp is missing; otherwise apply the events of
`(lastProcessedEpoch, epoch]`, advance `lastProcessedEpoch`, and emit rows. -/
def processEpoch (histories : String → List HistoryEntry)
    (eventsByEpoch : Int → List Ev) (timestamps : Int → Option String)
    (validators : List String) (startEpoch : Int) (startTs : String)
    (rs : RunState) (epoch : Int) : RunState :=
  match timestamps epoch with
  | none => rs
  | some timestamp =>
      let σ' := applyEventsInRange histories eventsByEpoch validators rs.σ
        rs.lastProcessedEpoch epoch
      let out := emitRowsForEpoch histories startEpoch startTs epoch timestamp validators σ'
      { σ := out.1, lastProcessedEpoch := epoch, results := rs.results ++ out.2 }

/-- Initial per-validator state (lines 270-285): the reconstructed start
shares, `prevTotalValue` priced at the initial snapshot, zero accumulators. -/
def mkInitState (initShares : String → Int) (initEntry : String → Option HistoryEntry)
    (validator : String) : ValidatorState :=
  { shares := initShares validator
    prevTotalValue := calculateTotalValue (initShares validator) (initEntry validator)
    periodDelegationValue := 0
    periodUndelegationValue := 0 }

/-- The pure computational core of `fetchStakingRewardsTest` (lines 240-363):
sample the epochs, then run the main loop from the initial state, returning
the emitted rows. -/
def fetchStakingRewardsCore (histories : String → List HistoryEntry)
    (eventsByEpoch : Int → List Ev) (timestamps : Int → Option String)
    (validators : List String) (initShares : String → Int)
    (initEntry : String → Option HistoryEntry)
    (startEpoch endEpoch : Int) (granularity : String) : List RewardRow :=
  let epochs := epochsToProcess startEpoch endEpoch granularity
  let startTs := match timestamps startEpoch with | some t => t | none => ""
  let rs0 : RunState :=
    { σ := mkInitState initShares initEntry
      lastProcessedEpoch := startEpoch
      results := [] }
  (epochs.foldl
    (processEpoch histories eventsByEpoch timestamps validators startEpoch startTs) rs0).results

/-- The exact integer reward carried by a row
(`rewards` is `toRose` of this value). -/
def rowEarned (r : RewardRow) : Int :=
  r.debugTotalValue - r.debugPrevTotalValue
    - r.debugPeriodDelegationValue + r.debugPeriodUndelegationValue

/-- Sum of the integer rewards of the rows of one validator. -/
def sumRewardsFor (v : String) (rows : List RewardRow) : Int :=
  ((rows.filter (fun r => r.validator = v)).map rowEarned).sum

/-- The unsigned body of `toRoseChars` (proof helper). -/
def roseBody (absStr : List Char) (td : Nat) : List Char :=
  let padded := List.replicate (td + 1 - absStr.length) '0' ++ absStr
  let intPart0 := padded.take (padded.length - td)
  let intPart := if intPart0.isEmpty then ['0'] else intPart0
  let decPart0 := dropTrailingZeros (padded.drop (padded.length - td))
  let decPart := if decPart0.isEmpty then ['0'] else decPart0
  if decPart = ['0'] then intPart else intPart ++ '.' :: decPart

/-- Concrete fixture: an empty history table. -/
def wHist : String → List HistoryEntry := fun _ => []

/-- Concrete fixture: one Add of 2 and one Debond of 9 at epoch 1. -/
def wEvents : Int → List Ev := fun e =>
  if e = 1 then [⟨EvType.add, "v", 2, 0⟩, ⟨EvType.debond, "v", 9, 0⟩] else []

/-- Concrete fixture: every validator starts with 3 shares. -/
def wState : String → ValidatorState := fun _ => ⟨3, 0, 0, 0⟩

/-! ## Lemmas: the emit step -/

/-- The row emitted for state `st` of validator `w` at sample epoch `E`
(proof helper matching the row literal of lines 338-353). -/
def emittedRow (startEpoch : Int) (startTs : String) (E : Int) (t : String)
    (w : String) (st : ValidatorState) (he : HistoryEntry) : RewardRow :=
  { start_timestamp := startTs
    end_timestamp := t
    start_epoch := startEpoch
    end_epoch := E
    validator := w
    shares := String.mk (intToChars st.shares)
    share_price := toRose (calculateShareValue (some he)) 18
    delegation_value := toRose (calculateTotalValue st.shares (some he))
    rewards := toRose (calculateTotalValue st.shares (some he) - st.prevTotalValue
      - st.periodDelegationValue + st.periodUndelegationValue)
    debugPrevTotalValue := st.prevTotalValue
    debugTotalValue := calculateTotalValue st.shares (some he)
    debugPeriodDelegationValue := st.periodDelegationValue
    debugPeriodUndelegationValue := st.periodUndelegationValue }

/-- The post-emission state (lines 355-358). -/
def emittedState (st : ValidatorState) (he : HistoryEntry) : ValidatorState :=
  { st with
    prevTotalValue := calculateTotalValue st.shares (some he)
    periodDelegationValue := 0
    periodUndelegationValue := 0 }

/-! ## Lemmas: per-validator projection of the event-application phase -/

/-- How one event of validator `v` transforms `v`'s own state (proof helper). -/
def applyEvSelf (histories : String → List HistoryEntry) (e : Int) (v : String)
    (st : ValidatorState) (ev : Ev) : ValidatorState :=
  match ev.type with
  | EvType.add =>
      { st with
        shares := st.shares + ev.shares
        periodDelegationValue := st.periodDelegationValue
          + calculateTotalValue ev.shares (findHistoryEntryForEpoch (histories v) e) }
  | EvType.debond =>
      { st with
        shares := if st.shares - ev.shares < 0 then 0 else st.shares - ev.shares
        periodUndelegationValue := st.periodUndelegationValue
          + calculateTotalValue ev.shares (findHistoryEntryForEpoch (histories v) e) }

/-- One event step, seen from validator `v` (events of others are skipped). -/
def eventStepV (histories : String → List HistoryEntry) (e : Int) (v : String)
    (st : ValidatorState) (ev : Ev) : ValidatorState :=
  if ev.validator = v then applyEvSelf histories e v st ev else st

/-- All events of one epoch, seen from validator `v`. -/
def applyEpochV (histories : String → List HistoryEntry) (eventsByEpoch : Int → List Ev)
    (v : String) (st : ValidatorState) (e : Int) : ValidatorState :=
  (eventsByEpoch e).foldl (eventStepV histories e v) st

/-- All events of the epochs in `(lo, hi]`, seen from validator `v`. -/
def applyRangeV (histories : String → List HistoryEntry) (eventsByEpoch : Int → List Ev)
    (v : String) (st : ValidatorState) (lo hi : Int) : ValidatorState :=
  (intRange lo hi).foldl (applyEpochV histories eventsByEpoch v) st

/-! ## Lemmas: componentwise form of the per-validator fold -/

/-- The scalar shares transition of one event, seen from validator `v`. -/
def sharesStepV (v : String) (sh : Int) (ev : Ev) : Int :=
  if ev.validator = v then
    match ev.type with
    | EvType.add => sh + ev.shares
    | EvType.debond => if sh - ev.shares < 0 then 0 else sh - ev.shares
  else sh

/-- Shares after the events of one epoch. -/
def sharesEpochV (eventsByEpoch : Int → List Ev) (v : String) (sh : Int) (e : Int) : Int :=
  (eventsByEpoch e).foldl (sharesStepV v) sh

/-- Shares after the events of the epochs in `(lo, hi]`. -/
def sharesRangeV (eventsByEpoch : Int → List Ev) (v : String) (sh : Int) (lo hi : Int) : Int :=
  (intRange lo hi).foldl (sharesEpochV eventsByEpoch v) sh

/-- The snapshot-priced value of one event at epoch `e`. -/
def evValue (histories : String → List HistoryEntry) (v : String) (e : Int) (ev : Ev) : Int :=
  calculateTotalValue ev.shares (findHistoryEntryForEpoch (histories v) e)

/-- Total delegation value of validator `v`'s Add events at epoch `e`. -/
def delegEpochV (histories : String → List HistoryEntry) (eventsByEpoch : Int → List Ev)
    (v : String) (e : Int) : Int :=
  (((eventsByEpoch e).filter (fun ev => ev.validator = v ∧ ev.type = EvType.add)).map
    (evValue histories v e)).sum

/-- Total undelegation value of validator `v`'s Debond events at epoch `e`. -/
def undelegEpochV (histories : String → List HistoryEntry) (eventsByEpoch : Int → List Ev)
    (v : String) (e : Int) : Int :=
  (((eventsByEpoch e).filter (fun ev => ev.validator = v ∧ ev.type = EvType.debond)).map
    (evValue histories v e)).sum

/-- Total delegation value over the epochs in `(lo, hi]`. -/
def delegRangeV (histories : String → List HistoryEntry) (eventsByEpoch : Int → List Ev)
    (v : String) (lo hi : Int) : Int :=
  ((intRange lo hi).map (delegEpochV histories eventsByEpoch v)).sum

/-- Total undelegation value over the epochs in `(lo, hi]`. -/
def undelegRangeV (histories : String → List HistoryEntry) (eventsByEpoch : Int → List Ev)
    (v : String) (lo hi : Int) : Int :=
  ((intRange lo hi).map (undelegEpochV histories eventsByEpoch v)).sum

/-! ## Lemmas: the telescoping reward sum -/

/-- The telescoping potential of a validator state:
`prevTotalValue + periodDelegationValue - periodUndelegationValue`. -/
def stateG (st : ValidatorState) : Int :=
  st.prevTotalValue + st.periodDelegationValue - st.periodUndelegationValue

/-! ## C1: reconciliation -/

/-- Concrete counterexample fixture: two snapshots at epochs 5 and 15
(price 1 then 2), both after the period start. -/
def cHist : String → List HistoryEntry := fun _ => [⟨5, 100, 100⟩, ⟨15, 200, 100⟩]

/-- Concrete counterexample fixture: one Debond of 50 shares at epoch 16. -/
def cEvents : Int → List Ev := fun e =>
  if e = 16 then [⟨EvType.debond, "v", 50, 100⟩] else []

/-- Concrete fixture: every epoch has a timestamp. -/
def cTs : Int → Option String := fun _ => some "t"

/-- Concrete counterexample fixture: current shares 0, reconstructed through
the share-position reconstructor (no Adds, one Debond of 50). -/
def cInitShares : String → Int := fun _ => reconstructShares 0 [] [50]

/-- Concrete counterexample fixture: the initial snapshot located at the
period start (none — both snapshots are after epoch 0). -/
def cInitEntry : String → Option HistoryEntry := fun v =>
  findHistoryEntryForEpoch (cHist v) 0

/-- Witness fixture for the amended C1: no events, 50 shares held throughout. -/
def dEvents : Int → List Ev := fun _ => []

/-- Witness fixture for the amended C1: 50 current shares. -/
def dInitShares : String → Int := fun _ => 50

/-! ## Lemmas: decimal digits and `toRose` -/

theorem charVal_digitChar {d : Nat} (h : d < 10) : charVal (digitChar d) = d := by
  interval_cases d <;> decide

theorem digitChar_ne_dot {d : Nat} (h : d < 10) : digitChar d ≠ '.' := by
  interval_cases d <;> decide

theorem digitChar_ne_minus {d : Nat} (h : d < 10) : digitChar d ≠ '-' := by
  interval_cases d <;> decide

theorem natDigits_ne_nil (n : Nat) : natDigits n ≠ [] := by
  rw [natDigits]
  split
  · simp
  · simp

theorem natDigits_mem {n : Nat} {c : Char} (h : c ∈ natDigits n) :
    ∃ d, d < 10 ∧ c = digitChar d := by
  induction n using Nat.strong_induction_on with
  | _ n ih =>
    rw [natDigits] at h
    split at h
    · next hlt =>
      simp only [List.mem_singleton] at h
      exact ⟨n, hlt, h⟩
    · next hge =>
      rcases List.mem_append.mp h with h1 | h2
      · exact ih (n / 10) (Nat.div_lt_self (by omega) (by omega)) h1
      · simp only [List.mem_singleton] at h2
        exact ⟨n % 10, Nat.mod_lt _ (by omega), h2⟩

theorem digitsVal_foldl (l : List Char) (acc : Nat) :
    l.foldl (fun a c => a * 10 + charVal c) acc
      = acc * 10 ^ l.length + l.foldl (fun a c => a * 10 + charVal c) 0 := by
  induction l generalizing acc with
  | nil => simp
  | cons c t ih =>
    simp only [List.foldl_cons, List.length_cons]
    rw [ih (acc * 10 + charVal c), ih (0 * 10 + charVal c)]
    ring

theorem digitsVal_append (a b : List Char) :
    digitsVal (a ++ b) = digitsVal a * 10 ^ b.length + digitsVal b := by
  unfold digitsVal
  rw [List.foldl_append, digitsVal_foldl]

theorem digitsVal_natDigits (n : Nat) : digitsVal (natDigits n) = n := by
  induction n using Nat.strong_induction_on with
  | _ n ih =>
    rw [natDigits]
    split
    · next hlt =>
      simp [digitsVal, charVal_digitChar hlt]
    · next hge =>
      rw [digitsVal_append, ih (n / 10) (Nat.div_lt_self (by omega) (by omega))]
      have : digitsVal [digitChar (n % 10)] = n % 10 := by
        simp [digitsVal, charVal_digitChar (Nat.mod_lt _ (show 0 < 10 by omega))]
      rw [this]
      simp only [List.length_singleton, pow_one]
      omega

theorem digitsVal_replicate_zero_append (k : Nat) (l : List Char) :
    digitsVal (List.replicate k '0' ++ l) = digitsVal l := by
  induction k with
  | zero => simp
  | succ m ih =>
    rw [List.replicate_succ, List.cons_append]
    unfold digitsVal at *
    simpa [charVal] using ih

theorem digitsVal_replicate_zero (k : Nat) :
    digitsVal (List.replicate k '0') = 0 := by
  have := digitsVal_replicate_zero_append k []
  simpa [digitsVal] using this

theorem dropWhile_head_not {α : Type} {p : α → Bool} {l : List α} {c : α} {t : List α}
    (h : l.dropWhile p = c :: t) : p c = false := by
  induction l with
  | nil => simp at h
  | cons a r ih =>
    rw [List.dropWhile_cons] at h
    split at h
    · exact ih h
    · next hp =>
      cases h
      simpa using hp

theorem dropTrailingZeros_spec (l : List Char) :
    l = dropTrailingZeros l ++ List.replicate (l.length - (dropTrailingZeros l).length) '0'
      ∧ (dropTrailingZeros l).getLast? ≠ some '0' := by
  unfold dropTrailingZeros
  set p : Char → Bool := fun c => c = '0' with hp
  constructor
  · have hsplit : l.reverse.takeWhile p ++ l.reverse.dropWhile p = l.reverse :=
      List.takeWhile_append_dropWhile p l.reverse
    have htake : l.reverse.takeWhile p
        = List.replicate (l.reverse.takeWhile p).length '0' := by
      apply List.eq_replicate_of_mem
      intro b hb
      have := List.mem_takeWhile_imp hb
      simpa [hp] using this
    have hlen : l.length = (l.reverse.dropWhile p).reverse.length
        + (l.reverse.takeWhile p).length := by
      have h1 : l.reverse.length = (l.reverse.takeWhile p).length
          + (l.reverse.dropWhile p).length := by
        rw [← List.length_append, hsplit]
      simp only [List.length_reverse] at h1 ⊢
      omega
    calc l = l.reverse.reverse := by rw [List.reverse_reverse]
      _ = (l.reverse.takeWhile p ++ l.reverse.dropWhile p).reverse := by rw [hsplit]
      _ = (l.reverse.dropWhile p).reverse ++ (l.reverse.takeWhile p).reverse := by
            rw [List.reverse_append]
      _ = (l.reverse.dropWhile p).reverse
          ++ List.replicate (l.length - ((l.reverse.dropWhile p).reverse).length) '0' := by
            rw [congrArg List.reverse htake, List.reverse_replicate]
            congr 1
            congr 1
            omega
  · intro hlast
    rw [List.getLast?_reverse] at hlast
    match hd : l.reverse.dropWhile p with
    | [] => rw [hd] at hlast; simp at hlast
    | c :: t =>
      rw [hd] at hlast
      simp only [List.head?_cons, Option.some.injEq] at hlast
      have := dropWhile_head_not hd
      rw [hlast] at this
      simp [hp] at this

theorem splitAtDot_no_dot {l : List Char} (h : '.' ∉ l) : splitAtDot l = (l, none) := by
  induction l with
  | nil => rfl
  | cons c t ih =>
    rw [splitAtDot]
    have hc : ¬(c = '.') := fun hc => h (hc ▸ List.mem_cons_self c t)
    rw [if_neg hc, ih (fun ht => h (List.mem_cons_of_mem c ht))]

theorem splitAtDot_append_dot {a : List Char} (b : List Char) (h : '.' ∉ a) :
    splitAtDot (a ++ '.' :: b) = (a, some b) := by
  induction a with
  | nil => simp [splitAtDot]
  | cons c t ih =>
    rw [List.cons_append, splitAtDot]
    have hc : ¬(c = '.') := fun hc => h (hc ▸ List.mem_cons_self c t)
    rw [if_neg hc, ih (fun ht => h (List.mem_cons_of_mem c ht))]

theorem natDigits_head_ne_minus (n : Nat) : (natDigits n).head? ≠ some '-' := by
  match hd : natDigits n with
  | [] => exact absurd hd (natDigits_ne_nil _)
  | c :: t =>
    simp only [List.head?_cons, ne_eq, Option.some.injEq]
    intro hc
    obtain ⟨d, hd10, hcd⟩ := natDigits_mem (hd ▸ List.mem_cons_self c t)
    exact digitChar_ne_minus hd10 (hcd ▸ hc)

theorem toRoseChars_eq (n : Int) (e : Nat) :
    toRoseChars n e
      = if n < 0 then '-' :: roseBody (natDigits n.natAbs) (ROSE_DECIMALS + e)
        else roseBody (natDigits n.natAbs) (ROSE_DECIMALS + e) := by
  unfold toRoseChars roseBody intToChars
  by_cases hn : n < 0
  · simp [hn]
  · simp [hn, natDigits_head_ne_minus n.natAbs]

theorem roseBody_spec (A : List Char) (td : Nat) (hA : A ≠ [])
    (hAc : ∀ c ∈ A, c ≠ '.' ∧ c ≠ '-') :
    parseScaledNat (roseBody A td) td = (digitsVal A : Int)
    ∧ (splitAtDot (roseBody A td)).1 ≠ []
    ∧ (∀ d, (splitAtDot (roseBody A td)).2 = some d →
        d ≠ [] ∧ d.getLast? ≠ some '0' ∧ d.length ≤ td)
    ∧ (∀ c ∈ roseBody A td, c ≠ '-')
    ∧ roseBody A td ≠ [] := by
  set P : List Char := List.replicate (td + 1 - A.length) '0' ++ A with hP
  have hPchars : ∀ c ∈ P, c ≠ '.' ∧ c ≠ '-' := by
    intro c hc
    rcases List.mem_append.mp hc with h1 | h2
    · have := List.eq_of_mem_replicate h1
      subst this
      exact ⟨by decide, by decide⟩
    · exact hAc c h2
  have hPlen : td + 1 ≤ P.length := by
    have hAlen : 1 ≤ A.length := by
      cases A with
      | nil => exact absurd rfl hA
      | cons a t => simp
    simp only [hP, List.length_append, List.length_replicate]
    omega
  set m : Nat := P.length - td with hm
  have hm1 : 1 ≤ m := by omega
  set ip0 : List Char := P.take m with hip0
  have hip0len : ip0.length = m := by
    simp only [hip0, List.length_take]
    omega
  have hip0ne : ip0 ≠ [] := by
    intro hnil
    rw [hnil] at hip0len
    simp at hip0len
    omega
  have hip0mem : ∀ c ∈ ip0, c ∈ P := fun c hc => List.mem_of_mem_take hc
  set dpRaw : List Char := P.drop m with hdpRaw
  have hdpRawlen : dpRaw.length = td := by
    simp only [hdpRaw, List.length_drop]
    omega
  have hdpRawmem : ∀ c ∈ dpRaw, c ∈ P := fun c hc => List.mem_of_mem_drop hc
  obtain ⟨hsplit, hlast⟩ := dropTrailingZeros_spec dpRaw
  set dp0 : List Char := dropTrailingZeros dpRaw with hdp0
  have hdp0le : dp0.length ≤ td := by
    have := congrArg List.length hsplit
    simp only [List.length_append, List.length_replicate] at this
    omega
  have hdp0mem : ∀ c ∈ dp0, c ∈ P := by
    intro c hc
    exact hdpRawmem c (hsplit ▸ List.mem_append_left _ hc)
  have hPip : P = ip0 ++ dpRaw := (List.take_append_drop m P).symm
  have hPval : digitsVal P = digitsVal A := digitsVal_replicate_zero_append _ A
  have hPsplitval : digitsVal P = digitsVal ip0 * 10 ^ td + digitsVal dpRaw := by
    rw [hPip, digitsVal_append, hdpRawlen]
  have hdotip : '.' ∉ ip0 := fun hd => (hPchars '.' (hip0mem '.' hd)).1 rfl
  have hbody : roseBody A td
      = if (if dp0.isEmpty then ['0'] else dp0) = ['0'] then ip0
        else ip0 ++ '.' :: (if dp0.isEmpty then ['0'] else dp0) := by
    unfold roseBody
    simp only [← hP, ← hm, ← hip0, ← hdpRaw, ← hdp0]
    have : ip0.isEmpty = false := by
      cases hip : ip0 with
      | nil => exact absurd hip hip0ne
      | cons a t => simp
    rw [this]
    simp only [Bool.false_eq_true, if_false]
  by_cases hdp0nil : dp0 = []
  · -- all-zero fractional block: the row is just the integer part
    have hdpRawrep : dpRaw = List.replicate td '0' := by
      have := hsplit
      rw [hdp0nil] at this
      simpa [hdpRawlen] using this
    have hres : roseBody A td = ip0 := by
      rw [hbody, hdp0nil]
      simp
    have hsd : splitAtDot (roseBody A td) = (ip0, none) := by
      rw [hres]
      exact splitAtDot_no_dot hdotip
    refine ⟨?_, ?_, ?_, ?_, ?_⟩
    · rw [parseScaledNat, hsd]
      have : digitsVal dpRaw = 0 := by rw [hdpRawrep]; exact digitsVal_replicate_zero td
      have hval : digitsVal ip0 * 10 ^ td = digitsVal A := by omega
      push_cast [← hval]
      ring
    · rw [hsd]; exact hip0ne
    · rw [hsd]; intro d hd; simp at hd
    · rw [hres]; intro c hc; exact (hPchars c (hip0mem c hc)).2
    · rw [hres]; exact hip0ne
  · -- nonempty stripped fractional part
    have hdp0ne0 : dp0 ≠ ['0'] := by
      intro h0
      rw [h0] at hlast
      simp at hlast
    have hres : roseBody A td = ip0 ++ '.' :: dp0 := by
      rw [hbody]
      have : dp0.isEmpty = false := by
        cases hdp : dp0 with
        | nil => exact absurd hdp hdp0nil
        | cons a t => simp
      rw [this]
      simp only [Bool.false_eq_true, if_false, if_neg hdp0ne0]
    have hsd : splitAtDot (roseBody A td) = (ip0, some dp0) := by
      rw [hres]
      exact splitAtDot_append_dot dp0 hdotip
    refine ⟨?_, ?_, ?_, ?_, ?_⟩
    · rw [parseScaledNat, hsd]
      have hk : dpRaw.length = dp0.length + (dpRaw.length - dp0.length) := by
        have := congrArg List.length hsplit
        simp only [List.length_append, List.length_replicate] at this
        omega
      have hdval : digitsVal dpRaw
          = digitsVal dp0 * 10 ^ (td - dp0.length) := by
        conv_lhs => rw [hsplit]
        rw [digitsVal_append, List.length_replicate, digitsVal_replicate_zero]
        rw [hdpRawlen]
        omega
      have hval : digitsVal ip0 * 10 ^ td + digitsVal dp0 * 10 ^ (td - dp0.length)
          = digitsVal A := by
        rw [← hdval]
        omega
      push_cast [← hval]
      ring
    · rw [hsd]; exact hip0ne
    · rw [hsd]
      intro d hd
      simp only [Option.some.injEq] at hd
      subst hd
      exact ⟨hdp0nil, hlast, hdp0le⟩
    · rw [hres]
      intro c hc
      rcases List.mem_append.mp hc with h1 | h2
      · exact (hPchars c (hip0mem c h1)).2
      · rcases List.mem_cons.mp h2 with h3 | h4
        · subst h3; decide
        · exact (hPchars c (hdp0mem c h4)).2
    · rw [hres]
      simp

theorem natDigits_chars (n : Nat) : ∀ c ∈ natDigits n, c ≠ '.' ∧ c ≠ '-' := by
  intro c hc
  obtain ⟨d, hd10, hcd⟩ := natDigits_mem hc
  exact ⟨hcd ▸ digitChar_ne_dot hd10, hcd ▸ digitChar_ne_minus hd10⟩

/-- C6: `toRose` is a pure function rendering an integer amount as a decimal
string of combined fractional width `ROSE_DECIMALS + extraDecimals`: the sign
is preserved (leading `-` exactly for negative amounts), the string splits
into a nonempty integer digit part and an optional fractional part of width
at most `ROSE_DECIMALS + extraDecimals` with trailing zeros stripped, and
parsing the string back as a scaled decimal recovers the amount exactly. -/
theorem claim_C6_formatting (n : Int) (e : Nat) :
    parseScaled (toRose n e) (ROSE_DECIMALS + e) = n
    ∧ ((toRose n e).data.head? = some '-' ↔ n < 0)
    ∧ (splitAtDot (if n < 0 then (toRose n e).data.tail else (toRose n e).data)).1 ≠ []
    ∧ (∀ d,
        (splitAtDot (if n < 0 then (toRose n e).data.tail else (toRose n e).data)).2
            = some d →
        d ≠ [] ∧ d.getLast? ≠ some '0' ∧ d.length ≤ ROSE_DECIMALS + e) := by
  have hdata : (toRose n e).data = toRoseChars n e := rfl
  obtain ⟨hparse, hip, hdp, hmem, hne⟩ :=
    roseBody_spec (natDigits n.natAbs) (ROSE_DECIMALS + e) (natDigits_ne_nil _)
      (natDigits_chars _)
  have hval : digitsVal (natDigits n.natAbs) = n.natAbs := digitsVal_natDigits _
  by_cases hn : n < 0
  · have hd : (toRose n e).data
        = '-' :: roseBody (natDigits n.natAbs) (ROSE_DECIMALS + e) := by
      rw [hdata, toRoseChars_eq, if_pos hn]
    refine ⟨?_, ?_, ?_, ?_⟩
    · have h1 : parseScaled (toRose n e) (ROSE_DECIMALS + e)
          = -(parseScaledNat (roseBody (natDigits n.natAbs) (ROSE_DECIMALS + e))
              (ROSE_DECIMALS + e)) := by
        simp [parseScaled, hd]
      rw [h1, hparse, hval]
      omega
    · rw [hd]
      simp [hn]
    · simp only [if_pos hn, hd, List.tail_cons]
      exact hip
    · simp only [if_pos hn, hd, List.tail_cons]
      exact hdp
  · have hd : (toRose n e).data
        = roseBody (natDigits n.natAbs) (ROSE_DECIMALS + e) := by
      rw [hdata, toRoseChars_eq, if_neg hn]
    match hrb : roseBody (natDigits n.natAbs) (ROSE_DECIMALS + e) with
    | [] => exact absurd hrb hne
    | c :: rest =>
      have hcne : ¬(c = '-') := by
        intro hc
        exact hmem c (hrb ▸ List.mem_cons_self c rest) hc
      refine ⟨?_, ?_, ?_, ?_⟩
      · rw [parseScaled, hd, hrb]
        simp only [if_neg hcne]
        rw [← hrb, hparse, hval]
        omega
      · rw [hd, hrb]
        simp only [List.head?_cons, Option.some.injEq]
        constructor
        · intro hc; exact absurd hc hcne
        · intro h0; exact absurd h0 hn
      · rw [if_neg hn, hd]
        exact hip
      · rw [if_neg hn, hd]
        exact hdp

/-! ## Lemmas: the snapshot locator -/

/-- In a strictly-sorted history the entries with `epoch ≤ t` form a prefix:
there is an `r` such that entry `i` satisfies `epoch ≤ t` exactly when `i < r`. -/
theorem sorted_prefix_char (history : List HistoryEntry) (t : Int)
    (hsorted : List.Pairwise (fun a b => a.epoch < b.epoch) history) :
    ∃ r, r ≤ history.length ∧ ∀ i (hi : i < history.length),
      ((history.get ⟨i, hi⟩).epoch ≤ t ↔ i < r) := by
  set p : HistoryEntry → Bool := fun en => decide (en.epoch ≤ t) with hp
  set r : Nat := (history.takeWhile p).length with hr
  have hpre : history.takeWhile p <+: history := List.takeWhile_prefix p
  have hrle : r ≤ history.length := hpre.length_le
  have htw : history.takeWhile p = history.take r := by
    rw [hr]
    exact List.prefix_iff_eq_take.mp hpre
  refine ⟨r, hrle, ?_⟩
  have hlt : ∀ i (hi : i < history.length), i < r → (history.get ⟨i, hi⟩).epoch ≤ t := by
    intro i hi hir
    have hmem : history.get ⟨i, hi⟩ ∈ history.takeWhile p := by
      rw [htw]
      have hlen : i < (history.take r).length := by
        rw [List.length_take]
        omega
      have heq2 : (history.take r).get ⟨i, hlen⟩ = history.get ⟨i, hi⟩ := by
        simp only [List.get_eq_getElem]
        exact List.getElem_take history
      rw [← heq2]
      exact List.get_mem _ _ _
    have := List.mem_takeWhile_imp hmem
    rw [hp] at this
    simpa using this
  intro i hi
  constructor
  · intro hle
    by_contra hir
    push_neg at hir
    -- the entry at index r fails the predicate; i ≥ r gives epoch i > t
    have hrlen : r < history.length := by omega
    have hfail : ¬ (history.get ⟨r, hrlen⟩).epoch ≤ t := by
      have hsplit := List.takeWhile_append_dropWhile p history
      match hd : history.dropWhile p with
      | [] =>
        rw [hd, List.append_nil] at hsplit
        have : r = history.length := by rw [hr, hsplit]
        omega
      | c :: rest =>
        have hc := dropWhile_head_not hd
        have hgetr : history.get ⟨r, hrlen⟩ = c := by
          have h2 : history.get? r = some c := by
            conv_lhs => rw [← hsplit]
            rw [List.get?_append_right (le_of_eq hr.symm), hd]
            have h3 : r - (List.takeWhile p history).length = 0 := by omega
            rw [h3]
            rfl
          rw [List.get?_eq_get hrlen] at h2
          simpa using h2
        rw [hgetr]
        intro hct
        rw [hp] at hc
        simp [hct] at hc
    rcases Nat.lt_or_ge r i with hri | hri
    · have := List.pairwise_iff_get.mp hsorted ⟨r, hrlen⟩ ⟨i, hi⟩ hri
      exact hfail (by omega)
    · have : i = r := by omega
      subst this
      exact hfail hle
  · exact hlt i hi

/-- The binary-search loop returns the last entry of the `≤ t` prefix
(`none` when the prefix is empty), given a valid search window. -/
theorem findHistoryLoop_correct (history : List HistoryEntry) (t : Int) (r : Nat)
    (hchar : ∀ i (hi : i < history.length), ((history.get ⟨i, hi⟩).epoch ≤ t ↔ i < r)) :
    ∀ fuel (low high : Int) (result : Option HistoryEntry),
      0 ≤ low → high ≤ (history.length : Int) - 1 →
      low ≤ (r : Int) → (r : Int) ≤ high + 1 →
      result = (if low = 0 then none else history.get? (low.toNat - 1)) →
      (high - low + 1).toNat < fuel →
      findHistoryLoop history t fuel low high result
        = if r = 0 then none else history.get? (r - 1) := by
  intro fuel
  induction fuel with
  | zero => intro low high result _ _ _ _ _ hf; omega
  | succ fuel ih =>
    intro low high result hlow hhigh hlr hrh hres hf
    simp only [findHistoryLoop]
    by_cases hlh : low ≤ high
    · rw [if_pos hlh]
      have hfd : Int.fdiv (low + high) 2 = (low + high) / 2 :=
        Int.fdiv_eq_ediv _ (by omega)
      rw [hfd]
      set mid : Int := (low + high) / 2 with hmid
      have hmid1 : low ≤ mid := by omega
      have hmid2 : mid ≤ high := by omega
      have hmidlen : mid.toNat < history.length := by omega
      split
      · next entry heq =>
        have hentry : entry = history.get ⟨mid.toNat, hmidlen⟩ := by
          rw [List.get?_eq_get hmidlen] at heq
          simpa using heq.symm
        by_cases hple : entry.epoch ≤ t
        · rw [if_pos hple]
          have hmr : mid.toNat < r :=
            (hchar mid.toNat hmidlen).mp (hentry ▸ hple)
          apply ih (mid + 1) high (some entry) (by omega) hhigh (by omega) hrh
          · rw [if_neg (by omega)]
            rw [show (mid + 1).toNat - 1 = mid.toNat by omega]
            rw [List.get?_eq_get hmidlen, hentry]
          · omega
        · rw [if_neg hple]
          have hmr : r ≤ mid.toNat := by
            by_contra hc
            push_neg at hc
            exact hple (hentry ▸ (hchar mid.toNat hmidlen).mpr hc)
          apply ih low (mid - 1) result hlow (by omega) hlr (by omega) hres
          omega
      · next heq =>
        rw [List.get?_eq_get hmidlen] at heq
        exact absurd heq (by simp)
    · rw [if_neg hlh]
      have hlowr : low = (r : Int) := by omega
      rw [hres]
      by_cases hr0 : r = 0
      · rw [if_pos (by omega), if_pos hr0]
      · rw [if_neg (by omega), if_neg hr0]
        congr 1
        omega

/-- `findHistoryEntryForEpoch` in terms of the `≤ t` prefix length. -/
theorem findHistoryEntryForEpoch_eq (history : List HistoryEntry) (t : Int) (r : Nat)
    (hr : r ≤ history.length)
    (hchar : ∀ i (hi : i < history.length), ((history.get ⟨i, hi⟩).epoch ≤ t ↔ i < r)) :
    findHistoryEntryForEpoch history t = if r = 0 then none else history.get? (r - 1) := by
  unfold findHistoryEntryForEpoch
  by_cases hnil : history.length = 0
  · rw [if_pos hnil]
    have : r = 0 := by omega
    rw [if_pos this]
  · rw [if_neg hnil]
    exact findHistoryLoop_correct history t r hchar (history.length + 1) 0
      ((history.length : Int) - 1) none (by omega) (by omega) (by omega) (by omega)
      (by rw [if_pos rfl]) (by omega)

/-- C2: on a history sorted strictly ascending by epoch,
`findHistoryEntryForEpoch` returns `none` exactly when the history is empty
or the target epoch precedes the first entry, and any returned entry is a
member with `epoch ≤ targetEpoch` that is maximal among such entries. -/
theorem claim_C2_snapshot_locator (history : List HistoryEntry) (targetEpoch : Int)
    (hsorted : List.Pairwise (fun a b => a.epoch < b.epoch) history) :
    (findHistoryEntryForEpoch history targetEpoch = none
      ↔ history = [] ∨ ∃ e₀, history.head? = some e₀ ∧ targetEpoch < e₀.epoch)
    ∧ ∀ en, findHistoryEntryForEpoch history targetEpoch = some en →
        en ∈ history ∧ en.epoch ≤ targetEpoch
          ∧ ∀ e' ∈ history, e'.epoch ≤ targetEpoch → e'.epoch ≤ en.epoch := by
  obtain ⟨r, hrle, hchar⟩ := sorted_prefix_char history targetEpoch hsorted
  have heq := findHistoryEntryForEpoch_eq history targetEpoch r hrle hchar
  constructor
  · rw [heq]
    constructor
    · intro hnone
      by_cases hr0 : r = 0
      · cases history with
        | nil => exact Or.inl rfl
        | cons e₀ rest =>
          refine Or.inr ⟨e₀, rfl, ?_⟩
          have h0 : 0 < (e₀ :: rest).length := by simp
          have hnle : ¬ ((e₀ :: rest).get ⟨0, h0⟩).epoch ≤ targetEpoch := by
            rw [hchar 0 h0]
            omega
          simpa using hnle
      · rw [if_neg hr0] at hnone
        have : history.get? (r - 1) = some (history.get ⟨r - 1, by omega⟩) :=
          List.get?_eq_get (by omega)
        rw [this] at hnone
        exact absurd hnone (by simp)
    · intro h
      rcases h with hnil | ⟨e₀, he₀, hlt⟩
      · subst hnil
        have : r = 0 := by simpa using hrle
        rw [if_pos this]
      · have hr0 : r = 0 := by
          by_contra hr0
          have h0 : 0 < history.length := by
            cases history with
            | nil => simp at he₀
            | cons a l => simp
          have hle : (history.get ⟨0, h0⟩).epoch ≤ targetEpoch :=
            (hchar 0 h0).mpr (by omega)
          have : history.get ⟨0, h0⟩ = e₀ := by
            cases history with
            | nil => simp at he₀
            | cons a l =>
              simp at he₀
              simpa using he₀
          rw [this] at hle
          omega
        rw [if_pos hr0]
  · intro en hsome
    rw [heq] at hsome
    by_cases hr0 : r = 0
    · rw [if_pos hr0] at hsome
      exact absurd hsome (by simp)
    · rw [if_neg hr0] at hsome
      have hget : history.get? (r - 1) = some (history.get ⟨r - 1, by omega⟩) :=
        List.get?_eq_get (by omega)
      rw [hget] at hsome
      have hen : en = history.get ⟨r - 1, by omega⟩ := by
        simpa using hsome.symm
      subst hen
      refine ⟨List.get_mem _ _ _, (hchar (r - 1) (by omega)).mpr (by omega), ?_⟩
      intro e' he' hle'
      obtain ⟨⟨i, hi⟩, hgi⟩ := List.mem_iff_get.mp he'
      have hir : i < r := (hchar i hi).mp (by rw [hgi]; exact hle')
      rcases Nat.lt_or_ge i (r - 1) with hlt | hge
      · have := List.pairwise_iff_get.mp hsorted ⟨i, hi⟩ ⟨r - 1, by omega⟩ hlt
        rw [hgi] at this
        omega
      · have : i = r - 1 := by omega
        subst this
        rw [← hgi]

/-! ## Lemmas: share-position reconstructor -/

theorem foldl_clamp_sub (A : List Int) (c : Int) (hc : 0 ≤ c) (hA : ∀ a ∈ A, 0 ≤ a) :
    A.foldl (fun acc sh => let x := acc - sh; if x < 0 then 0 else x) c
      = if c - A.sum < 0 then 0 else c - A.sum := by
  induction A generalizing c with
  | nil =>
    simp only [List.foldl_nil, List.sum_nil]
    omega
  | cons a t ih =>
    have ha : 0 ≤ a := hA a (List.mem_cons_self a t)
    have hts : 0 ≤ t.sum := List.sum_nonneg fun x hx => hA x (List.mem_cons_of_mem a hx)
    simp only [List.foldl_cons, List.sum_cons]
    rw [ih (if c - a < 0 then 0 else c - a) (by omega)
      (fun x hx => hA x (List.mem_cons_of_mem a hx))]
    omega

theorem foldl_add_sum (D : List Int) (x : Int) :
    D.foldl (fun acc sh => acc + sh) x = x + D.sum := by
  induction D generalizing x with
  | nil => simp
  | cons d t ih =>
    simp only [List.foldl_cons, List.sum_cons]
    rw [ih]
    ring

theorem reconstructShares_closed (c : Int) (A D : List Int) (hc : 0 ≤ c)
    (hA : ∀ a ∈ A, 0 ≤ a) :
    reconstructShares c A D = (if c - A.sum < 0 then 0 else c - A.sum) + D.sum := by
  unfold reconstructShares
  rw [foldl_clamp_sub A c hc hA, foldl_add_sum]

/-- C3 counterexample: with current count `10`, one Add of `20` and one
Debond of `5`, the code reconstructs `5` (it clamps after the Add, before
adding back the Debond shares), while the claimed end-clamped formula
`max(10 - 20 + 5, 0)` gives `0`. -/
theorem claim_C3_reconstructor_counterexample :
    reconstructShares 10 [20] [5] = 5
    ∧ reconstructSharesSpec 10 [20] [5] = 0
    ∧ reconstructShares 10 [20] [5] ≠ reconstructSharesSpec 10 [20] [5] := by
  refine ⟨by decide, by decide, by decide⟩

/-- C3 (amended): for a non-negative current count and non-negative event
share amounts, the reconstructed start-epoch count equals the current count
minus the sum of Add `newShares` — clamped to zero *before* the Debond
additions — plus the sum of Debond `debondingShares`; and the result is
unchanged under any reordering of the Add events and of the Debond events. -/
theorem claim_C3_reconstructor_amended (c : Int) (A D : List Int) (hc : 0 ≤ c)
    (hA : ∀ a ∈ A, 0 ≤ a) :
    reconstructShares c A D = (if c - A.sum < 0 then 0 else c - A.sum) + D.sum
    ∧ ∀ A' D', A'.Perm A → D'.Perm D →
        reconstructShares c A' D' = reconstructShares c A D := by
  refine ⟨reconstructShares_closed c A D hc hA, ?_⟩
  intro A' D' hpa hpd
  rw [reconstructShares_closed c A D hc hA,
    reconstructShares_closed c A' D' hc (fun a hx => hA a (hpa.mem_iff.mp hx)),
    hpa.sum_eq, hpd.sum_eq]

/-- Witness for the amended C3 at a concrete input. -/
theorem claim_C3_reconstructor_amended_witness :
    ((0 : Int) ≤ 10 ∧ ∀ a ∈ ([20] : List Int), 0 ≤ a)
    ∧ (reconstructShares 10 [20] [5]
        = (if (10 : Int) - [20].sum < 0 then 0 else 10 - [20].sum) + [5].sum
      ∧ ∀ A' D', A'.Perm [20] → D'.Perm [5] →
          reconstructShares 10 A' D' = reconstructShares 10 [20] [5]) :=
  ⟨⟨by decide, by decide⟩,
    claim_C3_reconstructor_amended 10 [20] [5] (by decide) (by decide)⟩

/-! ## Lemmas: epoch sampler -/

theorem stepSamples_mem (endE step : Int) (hstep : 1 ≤ step) :
    ∀ fuel e₀ x, x ∈ stepSamples endE step fuel e₀ → e₀ ≤ x ∧ x ≤ endE := by
  intro fuel
  induction fuel with
  | zero => intro e₀ x hx; simp [stepSamples] at hx
  | succ fuel ih =>
    intro e₀ x hx
    rw [stepSamples] at hx
    split at hx
    · next he =>
      rcases List.mem_cons.mp hx with rfl | hx'
      · exact ⟨le_refl x, he⟩
      · have := ih (e₀ + step) x hx'
        constructor
        · omega
        · exact this.2
    · simp at hx

theorem stepSamples_sorted (endE step : Int) (hstep : 1 ≤ step) :
    ∀ fuel e₀, List.Pairwise (· < ·) (stepSamples endE step fuel e₀) := by
  intro fuel
  induction fuel with
  | zero => intro e₀; simp [stepSamples]
  | succ fuel ih =>
    intro e₀
    rw [stepSamples]
    split
    · refine List.pairwise_cons.mpr ⟨?_, ih (e₀ + step)⟩
      intro x hx
      have := (stepSamples_mem endE step hstep fuel (e₀ + step) x hx).1
      omega
    · simp

theorem stepSamples_closed (endE step : Int) (hstep : 1 ≤ step) :
    ∀ fuel e₀, (endE + 1 - e₀).toNat ≤ fuel →
      stepSamples endE step fuel e₀
        = (List.range (if e₀ ≤ endE then (endE - e₀).toNat / step.toNat + 1 else 0)).map
            (fun (i : Nat) => e₀ + (i : Int) * step) := by
  intro fuel
  induction fuel with
  | zero =>
    intro e₀ hf
    have : ¬ e₀ ≤ endE := by omega
    simp [stepSamples, this]
  | succ fuel ih =>
    intro e₀ hf
    rw [stepSamples]
    by_cases he : e₀ ≤ endE
    · rw [if_pos he, if_pos he]
      rw [ih (e₀ + step) (by omega)]
      have hcnt : (endE - e₀).toNat / step.toNat + 1
          = (if e₀ + step ≤ endE then (endE - (e₀ + step)).toNat / step.toNat + 1
             else 0) + 1 := by
        by_cases he2 : e₀ + step ≤ endE
        · rw [if_pos he2]
          have hstepN : 0 < step.toNat := by omega
          have hle : step.toNat ≤ (endE - e₀).toNat := by omega
          rw [Nat.div_eq ((endE - e₀).toNat) step.toNat, if_pos ⟨hstepN, hle⟩]
          have : (endE - e₀).toNat - step.toNat = (endE - (e₀ + step)).toNat := by omega
          rw [this]
        · rw [if_neg he2]
          have : (endE - e₀).toNat < step.toNat := by omega
          rw [Nat.div_eq_of_lt this]
      rw [hcnt, List.range_succ_eq_map, List.map_cons, List.map_map]
      congr 1
      · push_cast
        ring
      · apply List.map_congr_left
        intro i _
        simp only [Function.comp_apply]
        push_cast
        ring
    · rw [if_neg he, if_neg he]
      simp

theorem epochsToProcess_eq_monthSpec (s e : Int) (hse : s ≤ e) {g : String}
    (hg : ¬ g = "year") : epochsToProcess s e g = monthSamplesSpec s e := by
  simp only [epochsToProcess, monthSamplesSpec]
  rw [if_neg hg]
  set step : Int := max 1 (Int.fdiv (e - s + 1) 12) with hstepdef
  have hstep : 1 ≤ step := le_max_left _ _
  have hclosed := stepSamples_closed e step hstep ((e - s).toNat + 1) (s + step) (by omega)
  have hcnteq : (if s + step ≤ e then (e - (s + step)).toNat / step.toNat + 1 else 0)
      = (e - s).toNat / step.toNat := by
    by_cases he2 : s + step ≤ e
    · rw [if_pos he2]
      have hstepN : 0 < step.toNat := by omega
      have hle : step.toNat ≤ (e - s).toNat := by omega
      rw [Nat.div_eq ((e - s).toNat) step.toNat, if_pos ⟨hstepN, hle⟩]
      have : (e - s).toNat - step.toNat = (e - (s + step)).toNat := by omega
      rw [this]
    · rw [if_neg he2]
      have : (e - s).toNat < step.toNat := by omega
      rw [Nat.div_eq_of_lt this]
  have hmap : stepSamples e step ((e - s).toNat + 1) (s + step)
      = (List.range ((e - s).toNat / step.toNat)).map
          (fun (i : Nat) => s + ((i : Int) + 1) * step) := by
    rw [hclosed, hcnteq]
    apply List.map_congr_left
    intro i _
    ring
  rw [hmap]
  set stepped : List Int :=
    (List.range ((e - s).toNat / step.toNat)).map
      (fun (i : Nat) => s + ((i : Int) + 1) * step) with hsteppeddef
  by_cases hl : stepped.getLast? = some e
  · have hne : stepped.isEmpty = false := by
      cases hst : stepped with
      | nil => rw [hst] at hl; simp at hl
      | cons a t => simp
    rw [if_neg (by rw [hne]; push_neg; exact ⟨by simp, hl⟩), if_pos hl]
  · rw [if_pos (Or.inr hl), if_neg hl]

theorem pairwise_lt_all_lt_of_getLast {l : List Int} {e : Int}
    (hs : List.Pairwise (· < ·) l) (hle : ∀ x ∈ l, x ≤ e)
    (hne : l.getLast? ≠ some e) : ∀ x ∈ l, x < e := by
  induction l with
  | nil => simp
  | cons a t ih =>
    intro x hx
    cases t with
    | nil =>
      simp only [List.mem_singleton] at hx
      subst hx
      have h1 := hle x (by simp)
      have h2 : x ≠ e := by
        intro hxe
        exact hne (by simp [hxe])
      omega
    | cons b t2 =>
      rw [List.getLast?_cons_cons] at hne
      rcases List.mem_cons.mp hx with rfl | hxt
      · have hab : x < b := (List.pairwise_cons.mp hs).1 b (by simp)
        have hbe : b ≤ e := hle b (by simp)
        omega
      · exact ih (List.pairwise_cons.mp hs).2
          (fun y hy => hle y (List.mem_cons_of_mem a hy)) hne x hxt

theorem epochsToProcess_getLast (s e : Int) (g : String) :
    (epochsToProcess s e g).getLast? = some e := by
  simp only [epochsToProcess]
  by_cases hg : g = "year"
  · rw [if_pos hg]
    rfl
  · rw [if_neg hg]
    set stepped : List Int :=
      stepSamples e (max 1 (Int.fdiv (e - s + 1) 12)) ((e - s).toNat + 1)
        (s + max 1 (Int.fdiv (e - s + 1) 12)) with hsteppeddef
    by_cases h : stepped.isEmpty = true ∨ ¬ stepped.getLast? = some e
    · rw [if_pos h]
      exact List.getLast?_concat _
    · rw [if_neg h]
      push_neg at h
      exact h.2

theorem epochsToProcess_mem (s e : Int) (hse : s ≤ e) (g : String) :
    ∀ x ∈ epochsToProcess s e g, s ≤ x ∧ x ≤ e := by
  simp only [epochsToProcess]
  by_cases hg : g = "year"
  · rw [if_pos hg]
    intro x hx
    simp only [List.mem_singleton] at hx
    subst hx
    exact ⟨hse, le_refl x⟩
  · rw [if_neg hg]
    set step : Int := max 1 (Int.fdiv (e - s + 1) 12) with hstepdef
    have hstep : 1 ≤ step := le_max_left _ _
    set stepped : List Int := stepSamples e step ((e - s).toNat + 1) (s + step)
      with hsteppeddef
    have hmemst : ∀ x ∈ stepped, s ≤ x ∧ x ≤ e := by
      intro x hx
      have := stepSamples_mem e step hstep _ _ x hx
      constructor
      · omega
      · exact this.2
    split
    · intro x hx
      rcases List.mem_append.mp hx with h1 | h2
      · exact hmemst x h1
      · simp only [List.mem_singleton] at h2
        subst h2
        exact ⟨hse, le_refl x⟩
    · exact hmemst

theorem epochsToProcess_sorted (s e : Int) (g : String) :
    List.Pairwise (· < ·) (epochsToProcess s e g) := by
  simp only [epochsToProcess]
  by_cases hg : g = "year"
  · rw [if_pos hg]
    simp
  · rw [if_neg hg]
    set step : Int := max 1 (Int.fdiv (e - s + 1) 12) with hstepdef
    have hstep : 1 ≤ step := le_max_left _ _
    set stepped : List Int := stepSamples e step ((e - s).toNat + 1) (s + step)
      with hsteppeddef
    have hsort : List.Pairwise (· < ·) stepped := stepSamples_sorted e step hstep _ _
    have hmemst : ∀ x ∈ stepped, x ≤ e := fun x hx =>
      (stepSamples_mem e step hstep _ _ x hx).2
    split
    · next h =>
      rw [List.pairwise_append]
      refine ⟨hsort, by simp, ?_⟩
      intro x hx y hy
      simp only [List.mem_singleton] at hy
      subst hy
      rcases h with h1 | h2
      · rw [List.isEmpty_iff] at h1
        rw [h1] at hx
        simp at hx
      · exact pairwise_lt_all_lt_of_getLast hsort hmemst h2 x hx
    · exact hsort

/-- C4 counterexample: with `startEpoch = endEpoch = 0`, month granularity
emits `[0]`, i.e. the emitted sequence *does* include `startEpoch`
(the forced final sample equals `endEpoch = startEpoch`). -/
theorem claim_C4_epoch_sampler_counterexample :
    (0 : Int) ∈ epochsToProcess 0 0 "month" := by decide

/-- C4 (amended): for `startEpoch ≤ endEpoch`, `"year"` granularity yields
exactly `[endEpoch]`; `"month"` granularity yields the ascending stepped
sequence `startEpoch + step, startEpoch + 2*step, …` (while `≤ endEpoch`,
`step = max(1, ⌊(endEpoch − startEpoch + 1)/12⌋)`) with a final sample forced
to `endEpoch` when the stepped sequence does not land there; the sequence is
strictly ascending and ends at `endEpoch`; and — provided
`startEpoch < endEpoch` — it never contains `startEpoch` (when
`startEpoch = endEpoch` the single forced sample is `startEpoch` itself). -/
theorem claim_C4_epoch_sampler_amended (s e : Int) (hse : s ≤ e) :
    epochsToProcess s e "year" = [e]
    ∧ epochsToProcess s e "month" = monthSamplesSpec s e
    ∧ (epochsToProcess s e "month").getLast? = some e
    ∧ List.Pairwise (· < ·) (epochsToProcess s e "month")
    ∧ (s < e → s ∉ epochsToProcess s e "month" ∧ s ∉ epochsToProcess s e "year") := by
  refine ⟨rfl, epochsToProcess_eq_monthSpec s e hse (by decide),
    epochsToProcess_getLast s e "month", epochsToProcess_sorted s e "month", ?_⟩
  intro hlt
  constructor
  · intro hmem
    simp only [epochsToProcess] at hmem
    rw [if_neg (by decide)] at hmem
    have hstep : 1 ≤ max 1 (Int.fdiv (e - s + 1) 12) := le_max_left _ _
    split at hmem
    · rcases List.mem_append.mp hmem with h1 | h2
      · have := stepSamples_mem e _ hstep _ _ s h1
        omega
      · simp only [List.mem_singleton] at h2
        omega
    · have := stepSamples_mem e _ hstep _ _ s hmem
      omega
  · intro hmem
    simp only [epochsToProcess, if_true] at hmem
    simp only [List.mem_singleton] at hmem
    omega

/-- Witness for the amended C4 at a concrete input. -/
theorem claim_C4_epoch_sampler_amended_witness :
    ((0 : Int) ≤ 24)
    ∧ (epochsToProcess 0 24 "year" = [24]
      ∧ epochsToProcess 0 24 "month" = monthSamplesSpec 0 24
      ∧ (epochsToProcess 0 24 "month").getLast? = some 24
      ∧ List.Pairwise (· < ·) (epochsToProcess 0 24 "month")
      ∧ ((0 : Int) < 24 → (0 : Int) ∉ epochsToProcess 0 24 "month"
          ∧ (0 : Int) ∉ epochsToProcess 0 24 "year")) :=
  ⟨by decide, claim_C4_epoch_sampler_amended 0 24 (by decide)⟩

/-- Witness for C2 at a concrete sorted two-entry history. -/
theorem claim_C2_snapshot_locator_witness :
    List.Pairwise (fun a b => a.epoch < b.epoch)
      ([⟨5, 100, 100⟩, ⟨15, 200, 100⟩] : List HistoryEntry)
    ∧ ((findHistoryEntryForEpoch [⟨5, 100, 100⟩, ⟨15, 200, 100⟩] 10 = none
        ↔ ([⟨5, 100, 100⟩, ⟨15, 200, 100⟩] : List HistoryEntry) = []
          ∨ ∃ e₀, ([⟨5, 100, 100⟩, ⟨15, 200, 100⟩] : List HistoryEntry).head? = some e₀
              ∧ 10 < e₀.epoch)
      ∧ ∀ en, findHistoryEntryForEpoch [⟨5, 100, 100⟩, ⟨15, 200, 100⟩] 10 = some en →
          en ∈ ([⟨5, 100, 100⟩, ⟨15, 200, 100⟩] : List HistoryEntry) ∧ en.epoch ≤ 10
            ∧ ∀ e' ∈ ([⟨5, 100, 100⟩, ⟨15, 200, 100⟩] : List HistoryEntry),
                e'.epoch ≤ 10 → e'.epoch ≤ en.epoch) :=
  ⟨by decide, claim_C2_snapshot_locator [⟨5, 100, 100⟩, ⟨15, 200, 100⟩] 10 (by decide)⟩

/-! ## Lemmas: paginated fetch -/

theorem paginatedFetchGo_spec {α : Type} (pages : Nat → PageResponse α) (limit k : Nat)
    (hshort : (pages k).items.length < limit)
    (hbefore : ∀ j < k, ¬ (pages j).items.length < limit) :
    ∀ fuel i offset acc, i ≤ k → k - i < fuel →
      paginatedFetchGo pages limit fuel i offset acc
        = some (acc ++ (((List.range (k + 1 - i)).map
            (fun j => (pages (i + j)).items)).flatten), k + 1) := by
  intro fuel
  induction fuel with
  | zero => intro i offset acc hik hf; omega
  | succ fuel ih =>
    intro i offset acc hik hf
    rw [paginatedFetchGo]
    by_cases hi : i = k
    · subst hi
      rw [if_pos hshort]
      have h1 : i + 1 - i = 1 := by omega
      have h2 : List.range 1 = [0] := rfl
      rw [h1, h2]
      simp
    · have hik' : i < k := by omega
      rw [if_neg (hbefore i hik')]
      rw [ih (i + 1) (offset + (pages i).items.length) (acc ++ (pages i).items)
        (by omega) (by omega)]
      have hr : k + 1 - i = (k - i) + 1 := by omega
      have hr2 : k + 1 - (i + 1) = k - i := by omega
      have hmapeq : List.map ((fun j => (pages (i + j)).items) ∘ Nat.succ)
            (List.range (k - i))
          = List.map (fun j => (pages (i + 1 + j)).items) (List.range (k - i)) := by
        apply List.map_congr_left
        intro j _
        simp only [Function.comp_apply]
        have hj : i + Nat.succ j = i + 1 + j := by omega
        rw [hj]
      rw [hr2, hr, List.range_succ_eq_map, List.map_cons, List.map_map, hmapeq]
      simp only [Nat.add_zero, List.flatten_cons, List.append_assoc]

/-- C7 counterexample: the exported `paginatedFetch` of src/src/utils.js does
*not* stop exactly when a page returns fewer items than the page size — with
`limit = 2`, a first page of exactly 2 items and `total_count = 2`, it stops
after that first full-size page because `offset + pageItems.length >=
total_count`, even though no page was short. -/
theorem claim_C7_pagination_counterexample :
    paginatedFetchUtils
        (fun i => if i = 0 then ⟨[1, 2], 2, false⟩ else ⟨([] : List Nat), 0, false⟩) 2 5
      = some ([1, 2], false, 1)
    ∧ ¬ ((fun i => if i = 0 then (⟨[1, 2], 2, false⟩ : PageResponse Nat)
          else ⟨[], 0, false⟩) 0).items.length < 2 := by
  refine ⟨by decide, by decide⟩

/-- C7 (amended): for every response sequence in which some page is short,
the `paginatedFetch` of src/unnamed/part_001 terminates after finitely many
requests — `k + 1` of them where `k` is the first short page — stops exactly
at that first short page (all earlier pages are full-size), and returns the
concatenation of all requested page item arrays in request order.  (The
exported utils.js variant additionally stops early on its `total_count`
check, see the counterexample.) -/
theorem claim_C7_pagination_amended {α : Type} (pages : Nat → PageResponse α)
    (limit n : Nat) (h : (pages n).items.length < limit) :
    ∃ k, k ≤ n ∧ (∀ j < k, limit ≤ (pages j).items.length)
      ∧ (pages k).items.length < limit
      ∧ ∀ fuel, n < fuel →
          paginatedFetch pages limit fuel
            = some ((((List.range (k + 1)).map (fun i => (pages i).items)).flatten), k + 1) := by
  have hex : ∃ m, (pages m).items.length < limit := ⟨n, h⟩
  set k : Nat := Nat.find hex with hk
  have hshort : (pages k).items.length < limit := Nat.find_spec hex
  have hbefore : ∀ j < k, ¬ (pages j).items.length < limit := fun j hj =>
    Nat.find_min hex hj
  have hkn : k ≤ n := Nat.find_min' hex h
  refine ⟨k, hkn, fun j hj => le_of_not_lt (hbefore j hj), hshort, ?_⟩
  intro fuel hf
  unfold paginatedFetch
  rw [paginatedFetchGo_spec pages limit k hshort hbefore fuel 0 0 [] (by omega) (by omega)]
  simp

/-- Witness for the amended C7: a single short first page. -/
theorem claim_C7_pagination_amended_witness :
    ((fun i => if i = 0 then (⟨[7], 0, false⟩ : PageResponse Nat)
        else ⟨[], 0, false⟩) 0).items.length < 2
    ∧ ∃ k, k ≤ 0 ∧ (∀ j < k,
          2 ≤ ((fun i => if i = 0 then (⟨[7], 0, false⟩ : PageResponse Nat)
              else ⟨[], 0, false⟩) j).items.length)
      ∧ ((fun i => if i = 0 then (⟨[7], 0, false⟩ : PageResponse Nat)
            else ⟨[], 0, false⟩) k).items.length < 2
      ∧ ∀ fuel, 0 < fuel →
          paginatedFetch
              (fun i => if i = 0 then (⟨[7], 0, false⟩ : PageResponse Nat)
                else ⟨[], 0, false⟩) 2 fuel
            = some ((((List.range (k + 1)).map
                (fun i => ((fun i => if i = 0 then (⟨[7], 0, false⟩ : PageResponse Nat)
                    else ⟨[], 0, false⟩) i).items))).flatten, k + 1) :=
  ⟨by decide,
    claim_C7_pagination_amended
      (fun i => if i = 0 then (⟨[7], 0, false⟩ : PageResponse Nat) else ⟨[], 0, false⟩)
      2 0 (by decide)⟩

/-! ## Lemmas: engine event application -/

/-- The updated state of the event's own validator, in closed form. -/
theorem applyEventToState_self (histories : String → List HistoryEntry)
    (validators : List String) (e : Int) (σ : String → ValidatorState) (ev : Ev)
    (hmem : ev.validator ∈ validators) :
    (applyEventToState histories validators e σ ev) ev.validator
      = (match ev.type with
         | EvType.add =>
           { σ ev.validator with
             shares := (σ ev.validator).shares + ev.shares
             periodDelegationValue := (σ ev.validator).periodDelegationValue
               + calculateTotalValue ev.shares
                   (findHistoryEntryForEpoch (histories ev.validator) e) }
         | EvType.debond =>
           { σ ev.validator with
             shares := if (σ ev.validator).shares - ev.shares < 0 then 0
                       else (σ ev.validator).shares - ev.shares
             periodUndelegationValue := (σ ev.validator).periodUndelegationValue
               + calculateTotalValue ev.shares
                   (findHistoryEntryForEpoch (histories ev.validator) e) }) := by
  unfold applyEventToState
  rw [if_pos hmem]
  cases htyp : ev.type <;> simp [htyp]

/-- Events leave the state of every other validator unchanged. -/
theorem applyEventToState_other (histories : String → List HistoryEntry)
    (validators : List String) (e : Int) (σ : String → ValidatorState) (ev : Ev)
    (v : String) (hne : ¬ v = ev.validator) :
    (applyEventToState histories validators e σ ev) v = σ v := by
  unfold applyEventToState
  by_cases hm : ev.validator ∈ validators
  · rw [if_pos hm]
    simp [hne]
  · rw [if_neg hm]

/-- Events of untracked validators are skipped entirely. -/
theorem applyEventToState_untracked (histories : String → List HistoryEntry)
    (validators : List String) (e : Int) (σ : String → ValidatorState) (ev : Ev)
    (hmem : ev.validator ∉ validators) :
    applyEventToState histories validators e σ ev = σ := by
  unfold applyEventToState
  rw [if_neg hmem]

theorem applyEventToState_shares_nonneg (histories : String → List HistoryEntry)
    (validators : List String) (e : Int) (σ : String → ValidatorState) (ev : Ev)
    (h0 : ∀ v, 0 ≤ (σ v).shares) (hev : 0 ≤ ev.shares) :
    ∀ v, 0 ≤ ((applyEventToState histories validators e σ ev) v).shares := by
  intro v
  by_cases hm : ev.validator ∈ validators
  · by_cases hveq : v = ev.validator
    · subst hveq
      rw [applyEventToState_self histories validators e σ ev hm]
      cases htyp : ev.type
      · simp only
        have := h0 ev.validator
        omega
      · simp only
        have := h0 ev.validator
        split <;> omega
    · rw [applyEventToState_other histories validators e σ ev v hveq]
      exact h0 v
  · rw [applyEventToState_untracked histories validators e σ ev hm]
    exact h0 v

theorem eventsFold_shares_nonneg (histories : String → List HistoryEntry)
    (validators : List String) (e : Int) :
    ∀ (evs : List Ev) (σ : String → ValidatorState),
      (∀ v, 0 ≤ (σ v).shares) → (∀ ev ∈ evs, 0 ≤ ev.shares) →
      ∀ v, 0 ≤ ((evs.foldl (applyEventToState histories validators e) σ) v).shares := by
  intro evs
  induction evs with
  | nil => intro σ h0 _ v; exact h0 v
  | cons ev t ih =>
    intro σ h0 hev v
    rw [List.foldl_cons]
    exact ih (applyEventToState histories validators e σ ev)
      (applyEventToState_shares_nonneg histories validators e σ ev h0
        (hev ev (List.mem_cons_self ev t)))
      (fun x hx => hev x (List.mem_cons_of_mem ev hx)) v

/-- C5: starting from non-negative per-validator share counts, and with
non-negative event share amounts, the engine's event-application phase never
produces a negative `shares` value; and a Debond whose `debondingShares`
exceeds the current tracked count clamps `shares` to exactly zero. -/
theorem claim_C5_zero_floor (histories : String → List HistoryEntry)
    (eventsByEpoch : Int → List Ev) (validators : List String)
    (σ : String → ValidatorState) (lo hi : Int)
    (h0 : ∀ v, 0 ≤ (σ v).shares)
    (hev : ∀ e ev, ev ∈ eventsByEpoch e → 0 ≤ ev.shares) :
    (∀ v, 0 ≤ ((applyEventsInRange histories eventsByEpoch validators σ lo hi) v).shares)
    ∧ (∀ (e : Int) (σ' : String → ValidatorState) (ev : Ev),
        ev.type = EvType.debond → ev.validator ∈ validators →
        (σ' ev.validator).shares < ev.shares →
        ((applyEventToState histories validators e σ' ev) ev.validator).shares = 0) := by
  constructor
  · unfold applyEventsInRange
    have hgen : ∀ (es : List Int) (σ0 : String → ValidatorState),
        (∀ v, 0 ≤ (σ0 v).shares) →
        ∀ v, 0 ≤ ((es.foldl
            (fun σ' e => (eventsByEpoch e).foldl (applyEventToState histories validators e) σ')
            σ0) v).shares := by
      intro es
      induction es with
      | nil => intro σ0 h0' v; exact h0' v
      | cons a t ih =>
        intro σ0 h0' v
        rw [List.foldl_cons]
        exact ih _ (eventsFold_shares_nonneg histories validators a (eventsByEpoch a) σ0 h0'
          (fun x hx => hev a x hx)) v
    exact hgen (intRange lo hi) σ h0
  · intro e σ' ev hty hmem hexceed
    rw [applyEventToState_self histories validators e σ' ev hmem, hty]
    simp only
    rw [if_pos (by omega)]

theorem wState_shares_nonneg : ∀ v, 0 ≤ (wState v).shares := by
  intro v
  show (0 : Int) ≤ 3
  decide

theorem wEvents_shares_nonneg : ∀ (e : Int), ∀ ev ∈ wEvents e, 0 ≤ ev.shares := by
  intro e ev hev
  unfold wEvents at hev
  split at hev
  · simp only [List.mem_cons, List.not_mem_nil, or_false] at hev
    rcases hev with rfl | rfl <;> decide
  · exact absurd hev (List.not_mem_nil ev)

/-- Witness for C5 at a concrete input: one Add then an over-large Debond. -/
theorem claim_C5_zero_floor_witness :
    ((∀ v, 0 ≤ (wState v).shares) ∧ ∀ (e : Int), ∀ ev ∈ wEvents e, 0 ≤ ev.shares)
    ∧ ((∀ v, 0 ≤ ((applyEventsInRange wHist wEvents ["v"] wState 0 2) v).shares)
      ∧ (∀ (e : Int) (σ' : String → ValidatorState) (ev : Ev),
          ev.type = EvType.debond → ev.validator ∈ ["v"] →
          (σ' ev.validator).shares < ev.shares →
          ((applyEventToState wHist ["v"] e σ' ev) ev.validator).shares = 0)) :=
  ⟨⟨wState_shares_nonneg, wEvents_shares_nonneg⟩,
    claim_C5_zero_floor wHist wEvents ["v"] wState 0 2 wState_shares_nonneg
      wEvents_shares_nonneg⟩

/-- C9: a Debond whose `debondingShares` exceeds the validator's current
tracked shares clamps `shares` to zero, yet still increases
`periodUndelegationValue` by the snapshot-priced value of the *full*
`debondingShares` amount. -/
theorem claim_C9_debond_clamp_full_value (histories : String → List HistoryEntry)
    (validators : List String) (e : Int) (σ : String → ValidatorState) (ev : Ev)
    (hmem : ev.validator ∈ validators) (hty : ev.type = EvType.debond)
    (hexceed : (σ ev.validator).shares < ev.shares) :
    ((applyEventToState histories validators e σ ev) ev.validator).shares = 0
    ∧ ((applyEventToState histories validators e σ ev) ev.validator).periodUndelegationValue
      = (σ ev.validator).periodUndelegationValue
        + calculateTotalValue ev.shares
            (findHistoryEntryForEpoch (histories ev.validator) e) := by
  rw [applyEventToState_self histories validators e σ ev hmem, hty]
  simp only
  constructor
  · rw [if_pos (by omega)]
  · trivial

/-- Witness for C9 at a concrete input: a Debond of 9 shares against a
tracked count of 3, priced at the epoch-5 snapshot. -/
theorem claim_C9_debond_clamp_full_value_witness :
    (((⟨EvType.debond, "v", 9, 0⟩ : Ev).validator ∈ ["v"])
      ∧ (⟨EvType.debond, "v", 9, 0⟩ : Ev).type = EvType.debond
      ∧ ((fun _ => (⟨3, 7, 0, 0⟩ : ValidatorState))
          (⟨EvType.debond, "v", 9, 0⟩ : Ev).validator).shares
          < (⟨EvType.debond, "v", 9, 0⟩ : Ev).shares)
    ∧ (((applyEventToState (fun _ => [⟨5, 200, 100⟩]) ["v"] 6
          (fun _ => ⟨3, 7, 0, 0⟩) ⟨EvType.debond, "v", 9, 0⟩) "v").shares = 0
      ∧ ((applyEventToState (fun _ => [⟨5, 200, 100⟩]) ["v"] 6
          (fun _ => ⟨3, 7, 0, 0⟩) ⟨EvType.debond, "v", 9, 0⟩) "v").periodUndelegationValue
        = ((fun (_ : String) => (⟨3, 7, 0, 0⟩ : ValidatorState)) "v").periodUndelegationValue
          + calculateTotalValue 9 (findHistoryEntryForEpoch [⟨5, 200, 100⟩] 6)) :=
  ⟨⟨by decide, by decide, by decide⟩,
    claim_C9_debond_clamp_full_value (fun _ => [⟨5, 200, 100⟩]) ["v"] 6
      (fun _ => ⟨3, 7, 0, 0⟩) ⟨EvType.debond, "v", 9, 0⟩ (by decide) (by decide) (by decide)⟩

theorem emitRowForValidator_skip_zero (histories : String → List HistoryEntry)
    (startEpoch : Int) (startTs : String) (E : Int) (t : String)
    (acc : (String → ValidatorState) × List RewardRow) (w : String)
    (hz : (acc.1 w).shares = 0 ∧ (acc.1 w).prevTotalValue = 0) :
    emitRowForValidator histories startEpoch startTs E t acc w = acc := by
  unfold emitRowForValidator
  rw [if_pos hz]

theorem emitRowForValidator_skip_nosnap (histories : String → List HistoryEntry)
    (startEpoch : Int) (startTs : String) (E : Int) (t : String)
    (acc : (String → ValidatorState) × List RewardRow) (w : String)
    (hz : ¬ ((acc.1 w).shares = 0 ∧ (acc.1 w).prevTotalValue = 0))
    (hfind : findHistoryEntryForEpoch (histories w) E = none) :
    emitRowForValidator histories startEpoch startTs E t acc w = acc := by
  unfold emitRowForValidator
  rw [if_neg hz, hfind]

theorem emitRowForValidator_emit (histories : String → List HistoryEntry)
    (startEpoch : Int) (startTs : String) (E : Int) (t : String)
    (acc : (String → ValidatorState) × List RewardRow) (w : String)
    (he : HistoryEntry)
    (hz : ¬ ((acc.1 w).shares = 0 ∧ (acc.1 w).prevTotalValue = 0))
    (hfind : findHistoryEntryForEpoch (histories w) E = some he) :
    emitRowForValidator histories startEpoch startTs E t acc w
      = ((fun v => if v = w then emittedState (acc.1 w) he else acc.1 v),
         acc.2 ++ [emittedRow startEpoch startTs E t w (acc.1 w) he]) := by
  unfold emitRowForValidator
  rw [if_neg hz, hfind]
  rfl

theorem emitFold_untouched (histories : String → List HistoryEntry)
    (startEpoch : Int) (startTs : String) (E : Int) (t : String) (v : String)
    (hnone : findHistoryEntryForEpoch (histories v) E = none) :
    ∀ (ws : List String) (acc : (String → ValidatorState) × List RewardRow),
      ((ws.foldl (emitRowForValidator histories startEpoch startTs E t) acc).1 v = acc.1 v)
      ∧ (∀ r ∈ (ws.foldl (emitRowForValidator histories startEpoch startTs E t) acc).2,
          r ∈ acc.2 ∨ ¬ r.validator = v) := by
  intro ws
  induction ws with
  | nil => intro acc; exact ⟨rfl, fun r hr => Or.inl hr⟩
  | cons w ws' ih =>
    intro acc
    rw [List.foldl_cons]
    have hstep : (emitRowForValidator histories startEpoch startTs E t acc w).1 v = acc.1 v
        ∧ ∀ r ∈ (emitRowForValidator histories startEpoch startTs E t acc w).2,
            r ∈ acc.2 ∨ ¬ r.validator = v := by
      by_cases hz : (acc.1 w).shares = 0 ∧ (acc.1 w).prevTotalValue = 0
      · rw [emitRowForValidator_skip_zero histories startEpoch startTs E t acc w hz]
        exact ⟨rfl, fun r hr => Or.inl hr⟩
      · by_cases hwv : w = v
        · subst hwv
          rw [emitRowForValidator_skip_nosnap histories startEpoch startTs E t acc w hz hnone]
          exact ⟨rfl, fun r hr => Or.inl hr⟩
        · match hfind : findHistoryEntryForEpoch (histories w) E with
          | none =>
            rw [emitRowForValidator_skip_nosnap histories startEpoch startTs E t acc w hz hfind]
            exact ⟨rfl, fun r hr => Or.inl hr⟩
          | some he =>
            rw [emitRowForValidator_emit histories startEpoch startTs E t acc w he hz hfind]
            constructor
            · simp only
              rw [if_neg (fun hvw => hwv hvw.symm)]
            · intro r hr
              rcases List.mem_append.mp hr with h1 | h2
              · exact Or.inl h1
              · simp only [List.mem_singleton] at h2
                subst h2
                exact Or.inr (fun hv => hwv hv)
    obtain ⟨h1, h2⟩ := ih (emitRowForValidator histories startEpoch startTs E t acc w)
    refine ⟨h1.trans hstep.1, ?_⟩
    intro r hr
    rcases h2 r hr with hin | hne
    · exact hstep.2 r hin
    · exact Or.inr hne

/-- C8: at a sample epoch `E` where no snapshot is located for validator `v`,
the emit step emits no row for `v` and leaves `v`'s state completely
unchanged (`prevTotalValue` not advanced, period accumulators not reset);
the emit step is a total function, so the run continues. -/
theorem claim_C8_missing_snapshot_skip (histories : String → List HistoryEntry)
    (startEpoch : Int) (startTs : String) (E : Int) (t : String)
    (validators : List String) (σ : String → ValidatorState) (v : String)
    (hnone : findHistoryEntryForEpoch (histories v) E = none) :
    ((emitRowsForEpoch histories startEpoch startTs E t validators σ).1 v = σ v)
    ∧ ∀ r ∈ (emitRowsForEpoch histories startEpoch startTs E t validators σ).2,
        ¬ r.validator = v := by
  obtain ⟨h1, h2⟩ := emitFold_untouched histories startEpoch startTs E t v hnone
    validators (σ, [])
  refine ⟨h1, ?_⟩
  intro r hr
  rcases h2 r hr with hin | hne
  · exact absurd hin (List.not_mem_nil r)
  · exact hne

/-- Witness for C8: a validator with an empty history at sample epoch 5. -/
theorem claim_C8_missing_snapshot_skip_witness :
    findHistoryEntryForEpoch (wHist "v") 5 = none
    ∧ (((emitRowsForEpoch wHist 0 "ts" 5 "t" ["v"] wState).1 "v" = wState "v")
      ∧ ∀ r ∈ (emitRowsForEpoch wHist 0 "ts" 5 "t" ["v"] wState).2,
          ¬ r.validator = "v") :=
  ⟨rfl, claim_C8_missing_snapshot_skip wHist 0 "ts" 5 "t" ["v"] wState "v" rfl⟩

theorem eventsFold_proj (histories : String → List HistoryEntry)
    (validators : List String) (e : Int) (v : String) (hv : v ∈ validators) :
    ∀ (evs : List Ev) (σ : String → ValidatorState),
      ((evs.foldl (applyEventToState histories validators e) σ) v)
        = evs.foldl (eventStepV histories e v) (σ v) := by
  intro evs
  induction evs with
  | nil => intro σ; rfl
  | cons ev t ih =>
    intro σ
    rw [List.foldl_cons, List.foldl_cons, ih]
    congr 1
    unfold eventStepV
    by_cases hev : ev.validator = v
    · rw [if_pos hev]
      subst hev
      rw [applyEventToState_self histories validators e σ ev hv]
      unfold applyEvSelf
      rfl
    · rw [if_neg hev]
      exact applyEventToState_other histories validators e σ ev v (fun h => hev h.symm)

theorem epochsFold_proj (histories : String → List HistoryEntry)
    (eventsByEpoch : Int → List Ev) (validators : List String) (v : String)
    (hv : v ∈ validators) :
    ∀ (es : List Int) (σ : String → ValidatorState),
      ((es.foldl
          (fun σ' e => (eventsByEpoch e).foldl (applyEventToState histories validators e) σ')
          σ) v)
        = es.foldl (applyEpochV histories eventsByEpoch v) (σ v) := by
  intro es
  induction es with
  | nil => intro σ; rfl
  | cons a t ih =>
    intro σ
    rw [List.foldl_cons, List.foldl_cons, ih]
    congr 1
    exact eventsFold_proj histories validators a v hv (eventsByEpoch a) σ

theorem applyEventsInRange_proj (histories : String → List HistoryEntry)
    (eventsByEpoch : Int → List Ev) (validators : List String)
    (σ : String → ValidatorState) (lo hi : Int) (v : String) (hv : v ∈ validators) :
    (applyEventsInRange histories eventsByEpoch validators σ lo hi) v
      = applyRangeV histories eventsByEpoch v (σ v) lo hi :=
  epochsFold_proj histories eventsByEpoch validators v hv (intRange lo hi) σ

theorem evFold_char (histories : String → List HistoryEntry) (e : Int) (v : String) :
    ∀ (evs : List Ev) (st : ValidatorState),
      evs.foldl (eventStepV histories e v) st
        = { shares := evs.foldl (sharesStepV v) st.shares
            prevTotalValue := st.prevTotalValue
            periodDelegationValue := st.periodDelegationValue
              + ((evs.filter (fun ev => ev.validator = v ∧ ev.type = EvType.add)).map
                  (evValue histories v e)).sum
            periodUndelegationValue := st.periodUndelegationValue
              + ((evs.filter (fun ev => ev.validator = v ∧ ev.type = EvType.debond)).map
                  (evValue histories v e)).sum } := by
  intro evs
  induction evs with
  | nil => intro st; simp
  | cons ev t ih =>
    intro st
    rw [List.foldl_cons, ih, List.foldl_cons]
    by_cases hev : ev.validator = v
    · cases htyp : ev.type
      · -- add event
        have hstep : eventStepV histories e v st ev
            = { st with
                shares := st.shares + ev.shares
                periodDelegationValue := st.periodDelegationValue
                  + calculateTotalValue ev.shares
                      (findHistoryEntryForEpoch (histories v) e) } := by
          unfold eventStepV applyEvSelf
          rw [if_pos hev, htyp]
        have hsh : sharesStepV v st.shares ev = st.shares + ev.shares := by
          unfold sharesStepV
          rw [if_pos hev, htyp]
        have hfa : (ev :: t).filter (fun x => decide (x.validator = v ∧ x.type = EvType.add))
            = ev :: t.filter (fun x => decide (x.validator = v ∧ x.type = EvType.add)) :=
          List.filter_cons_of_pos (by simp [hev, htyp])
        have hfd : (ev :: t).filter (fun x => decide (x.validator = v ∧ x.type = EvType.debond))
            = t.filter (fun x => decide (x.validator = v ∧ x.type = EvType.debond)) :=
          List.filter_cons_of_neg (by simp [hev, htyp])
        rw [hstep, hsh, hfa, hfd, List.map_cons, List.sum_cons]
        simp only
        unfold evValue
        congr 1 <;> ring
      · -- debond event
        have hstep : eventStepV histories e v st ev
            = { st with
                shares := if st.shares - ev.shares < 0 then 0 else st.shares - ev.shares
                periodUndelegationValue := st.periodUndelegationValue
                  + calculateTotalValue ev.shares
                      (findHistoryEntryForEpoch (histories v) e) } := by
          unfold eventStepV applyEvSelf
          rw [if_pos hev, htyp]
        have hsh : sharesStepV v st.shares ev
            = if st.shares - ev.shares < 0 then 0 else st.shares - ev.shares := by
          unfold sharesStepV
          rw [if_pos hev, htyp]
        have hfa : (ev :: t).filter (fun x => decide (x.validator = v ∧ x.type = EvType.add))
            = t.filter (fun x => decide (x.validator = v ∧ x.type = EvType.add)) :=
          List.filter_cons_of_neg (by simp [hev, htyp])
        have hfd : (ev :: t).filter (fun x => decide (x.validator = v ∧ x.type = EvType.debond))
            = ev :: t.filter (fun x => decide (x.validator = v ∧ x.type = EvType.debond)) :=
          List.filter_cons_of_pos (by simp [hev, htyp])
        rw [hstep, hsh, hfa, hfd, List.map_cons, List.sum_cons]
        simp only
        unfold evValue
        congr 1 <;> ring
    · have hstep : eventStepV histories e v st ev = st := by
        unfold eventStepV
        rw [if_neg hev]
      have hsh : sharesStepV v st.shares ev = st.shares := by
        unfold sharesStepV
        rw [if_neg hev]
      have hfa : (ev :: t).filter (fun x => decide (x.validator = v ∧ x.type = EvType.add))
          = t.filter (fun x => decide (x.validator = v ∧ x.type = EvType.add)) :=
        List.filter_cons_of_neg (by simp [hev])
      have hfd : (ev :: t).filter (fun x => decide (x.validator = v ∧ x.type = EvType.debond))
          = t.filter (fun x => decide (x.validator = v ∧ x.type = EvType.debond)) :=
        List.filter_cons_of_neg (by simp [hev])
      rw [hstep, hsh, hfa, hfd]

theorem epochsFoldV_char (histories : String → List HistoryEntry)
    (eventsByEpoch : Int → List Ev) (v : String) :
    ∀ (es : List Int) (st : ValidatorState),
      es.foldl (applyEpochV histories eventsByEpoch v) st
        = { shares := es.foldl (sharesEpochV eventsByEpoch v) st.shares
            prevTotalValue := st.prevTotalValue
            periodDelegationValue := st.periodDelegationValue
              + (es.map (delegEpochV histories eventsByEpoch v)).sum
            periodUndelegationValue := st.periodUndelegationValue
              + (es.map (undelegEpochV histories eventsByEpoch v)).sum } := by
  intro es
  induction es with
  | nil => intro st; simp
  | cons a t ih =>
    intro st
    rw [List.foldl_cons, ih, List.foldl_cons]
    have hstep : applyEpochV histories eventsByEpoch v st a
        = { shares := sharesEpochV eventsByEpoch v st.shares a
            prevTotalValue := st.prevTotalValue
            periodDelegationValue := st.periodDelegationValue
              + delegEpochV histories eventsByEpoch v a
            periodUndelegationValue := st.periodUndelegationValue
              + undelegEpochV histories eventsByEpoch v a } :=
      evFold_char histories a v (eventsByEpoch a) st
    rw [hstep, List.map_cons, List.sum_cons, List.map_cons, List.sum_cons]
    simp only
    congr 1 <;> ring

theorem applyRangeV_char (histories : String → List HistoryEntry)
    (eventsByEpoch : Int → List Ev) (v : String) (st : ValidatorState) (lo hi : Int) :
    applyRangeV histories eventsByEpoch v st lo hi
      = { shares := sharesRangeV eventsByEpoch v st.shares lo hi
          prevTotalValue := st.prevTotalValue
          periodDelegationValue := st.periodDelegationValue
            + delegRangeV histories eventsByEpoch v lo hi
          periodUndelegationValue := st.periodUndelegationValue
            + undelegRangeV histories eventsByEpoch v lo hi } :=
  epochsFoldV_char histories eventsByEpoch v (intRange lo hi) st

theorem intRange_append (lo mid hi : Int) (h1 : lo ≤ mid) (h2 : mid ≤ hi) :
    intRange lo mid ++ intRange mid hi = intRange lo hi := by
  unfold intRange
  rw [show (hi - lo).toNat = (mid - lo).toNat + (hi - mid).toNat by omega,
    List.range_add, List.map_append, List.map_map]
  congr 1
  apply List.map_congr_left
  intro i _
  simp only [Function.comp_apply]
  push_cast
  omega

theorem intRange_self (lo : Int) : intRange lo lo = [] := by
  unfold intRange
  rw [show (lo - lo).toNat = 0 by omega]
  rfl

theorem sharesRangeV_append (eventsByEpoch : Int → List Ev) (v : String) (sh : Int)
    (lo mid hi : Int) (h1 : lo ≤ mid) (h2 : mid ≤ hi) :
    sharesRangeV eventsByEpoch v (sharesRangeV eventsByEpoch v sh lo mid) mid hi
      = sharesRangeV eventsByEpoch v sh lo hi := by
  unfold sharesRangeV
  rw [← intRange_append lo mid hi h1 h2, List.foldl_append]

theorem delegRangeV_append (histories : String → List HistoryEntry)
    (eventsByEpoch : Int → List Ev) (v : String) (lo mid hi : Int)
    (h1 : lo ≤ mid) (h2 : mid ≤ hi) :
    delegRangeV histories eventsByEpoch v lo mid + delegRangeV histories eventsByEpoch v mid hi
      = delegRangeV histories eventsByEpoch v lo hi := by
  unfold delegRangeV
  rw [← intRange_append lo mid hi h1 h2, List.map_append, List.sum_append]

theorem undelegRangeV_append (histories : String → List HistoryEntry)
    (eventsByEpoch : Int → List Ev) (v : String) (lo mid hi : Int)
    (h1 : lo ≤ mid) (h2 : mid ≤ hi) :
    undelegRangeV histories eventsByEpoch v lo mid
        + undelegRangeV histories eventsByEpoch v mid hi
      = undelegRangeV histories eventsByEpoch v lo hi := by
  unfold undelegRangeV
  rw [← intRange_append lo mid hi h1 h2, List.map_append, List.sum_append]

theorem sumRewardsFor_append (v : String) (l1 l2 : List RewardRow) :
    sumRewardsFor v (l1 ++ l2) = sumRewardsFor v l1 + sumRewardsFor v l2 := by
  unfold sumRewardsFor
  rw [List.filter_append, List.map_append, List.sum_append]

theorem sumRewardsFor_single_self (v : String) (row : RewardRow)
    (hv : row.validator = v) : sumRewardsFor v [row] = rowEarned row := by
  unfold sumRewardsFor
  rw [List.filter_cons_of_pos (by simp [hv])]
  simp

theorem sumRewardsFor_single_other (v : String) (row : RewardRow)
    (hv : ¬ row.validator = v) : sumRewardsFor v [row] = 0 := by
  unfold sumRewardsFor
  rw [List.filter_cons_of_neg (by simp [hv])]
  rfl

/-- Emission preserves the telescoping identity
`sumRewardsFor v rows = stateG (state of v) + C` and the shares of `v`. -/
theorem emitFold_pres (histories : String → List HistoryEntry) (s : Int) (ts : String)
    (E : Int) (t : String) (v : String) :
    ∀ (ws : List String) (acc : (String → ValidatorState) × List RewardRow) (C S : Int),
      sumRewardsFor v acc.2 = stateG (acc.1 v) + C →
      (acc.1 v).shares = S →
      sumRewardsFor v ((ws.foldl (emitRowForValidator histories s ts E t) acc).2)
          = stateG (((ws.foldl (emitRowForValidator histories s ts E t) acc).1) v) + C
      ∧ (((ws.foldl (emitRowForValidator histories s ts E t) acc).1) v).shares = S := by
  intro ws
  induction ws with
  | nil => intro acc C S h1 h2; exact ⟨h1, h2⟩
  | cons w ws' ih =>
    intro acc C S h1 h2
    rw [List.foldl_cons]
    have hstep : sumRewardsFor v (emitRowForValidator histories s ts E t acc w).2
        = stateG ((emitRowForValidator histories s ts E t acc w).1 v) + C
        ∧ ((emitRowForValidator histories s ts E t acc w).1 v).shares = S := by
      by_cases hz : (acc.1 w).shares = 0 ∧ (acc.1 w).prevTotalValue = 0
      · rw [emitRowForValidator_skip_zero histories s ts E t acc w hz]
        exact ⟨h1, h2⟩
      · match hfind : findHistoryEntryForEpoch (histories w) E with
        | none =>
          rw [emitRowForValidator_skip_nosnap histories s ts E t acc w hz hfind]
          exact ⟨h1, h2⟩
        | some he =>
          rw [emitRowForValidator_emit histories s ts E t acc w he hz hfind]
          by_cases hwv : w = v
          · subst hwv
            have hupd : ((fun v' => if v' = w then emittedState (acc.1 w) he else acc.1 v'),
                acc.2 ++ [emittedRow s ts E t w (acc.1 w) he]).1 w
                = emittedState (acc.1 w) he := by
              simp
            constructor
            · rw [sumRewardsFor_append, h1, sumRewardsFor_single_self w _ rfl, hupd]
              unfold stateG emittedState rowEarned emittedRow
              simp only
              ring
            · rw [hupd]
              unfold emittedState
              exact h2
          · have hne : ¬ v = w := fun h => hwv h.symm
            have hupd : ((fun v' => if v' = w then emittedState (acc.1 w) he else acc.1 v'),
                acc.2 ++ [emittedRow s ts E t w (acc.1 w) he]).1 v = acc.1 v := by
              simp only
              rw [if_neg hne]
            constructor
            · rw [sumRewardsFor_append, h1, sumRewardsFor_single_other v _ hwv, hupd]
              ring
            · rw [hupd]
              exact h2
    exact ih (emitRowForValidator histories s ts E t acc w) C S hstep.1 hstep.2

/-- When a snapshot exists at the sample epoch and the validator's tracked
share count is nonzero, the emit loop leaves the validator in the emitted
state `⟨S, totalValue, 0, 0⟩`. -/
theorem emitFold_final (histories : String → List HistoryEntry) (s : Int) (ts : String)
    (E : Int) (t : String) (v : String) (he : HistoryEntry) (S : Int)
    (hfind : findHistoryEntryForEpoch (histories v) E = some he) (hS : ¬ S = 0) :
    ∀ (ws : List String) (acc : (String → ValidatorState) × List RewardRow),
      (acc.1 v).shares = S →
      (v ∈ ws ∨ acc.1 v
        = ⟨S, calculateTotalValue S (some he), 0, 0⟩) →
      (((ws.foldl (emitRowForValidator histories s ts E t) acc).1) v)
        = ⟨S, calculateTotalValue S (some he), 0, 0⟩ := by
  intro ws
  induction ws with
  | nil =>
    intro acc hsh hcase
    rcases hcase with h | h
    · exact absurd h (List.not_mem_nil v)
    · exact h
  | cons w ws' ih =>
    intro acc hsh hcase
    rw [List.foldl_cons]
    by_cases hwv : w = v
    · subst hwv
      have hz : ¬ ((acc.1 w).shares = 0 ∧ (acc.1 w).prevTotalValue = 0) := by
        intro hc
        rw [hsh] at hc
        exact hS hc.1
      rw [emitRowForValidator_emit histories s ts E t acc w he hz hfind]
      have hupd : ((fun v' => if v' = w then emittedState (acc.1 w) he else acc.1 v'),
          acc.2 ++ [emittedRow s ts E t w (acc.1 w) he]).1 w
          = emittedState (acc.1 w) he := by
        simp
      apply ih
      · rw [hupd]
        unfold emittedState
        exact hsh
      · right
        rw [hupd]
        unfold emittedState
        rw [show (acc.1 w).shares = S from hsh]
    · have hpres : (emitRowForValidator histories s ts E t acc w).1 v = acc.1 v := by
        by_cases hz : (acc.1 w).shares = 0 ∧ (acc.1 w).prevTotalValue = 0
        · rw [emitRowForValidator_skip_zero histories s ts E t acc w hz]
        · match hfind2 : findHistoryEntryForEpoch (histories w) E with
          | none =>
            rw [emitRowForValidator_skip_nosnap histories s ts E t acc w hz hfind2]
          | some he2 =>
            rw [emitRowForValidator_emit histories s ts E t acc w he2 hz hfind2]
            simp only
            rw [if_neg (fun h => hwv h.symm)]
      apply ih
      · rw [hpres]
        exact hsh
      · rcases hcase with h | h
        · rcases List.mem_cons.mp h with h1 | h2
          · exact absurd h1.symm hwv
          · exact Or.inl h2
        · exact Or.inr (by rw [hpres]; exact h)

/-! ## Lemmas: the main engine loop -/

theorem processEpochs_inv (histories : String → List HistoryEntry)
    (eventsByEpoch : Int → List Ev) (timestamps : Int → Option String)
    (validators : List String) (s : Int) (startTs : String) (v : String)
    (hv : v ∈ validators) (prev0 s0 endB : Int) :
    ∀ (es : List Int) (rs : RunState),
      List.Pairwise (· ≤ ·) es →
      (∀ x ∈ es, rs.lastProcessedEpoch ≤ x ∧ x ≤ endB) →
      s ≤ rs.lastProcessedEpoch →
      rs.lastProcessedEpoch ≤ endB →
      sumRewardsFor v rs.results
        = stateG (rs.σ v) - prev0
          - delegRangeV histories eventsByEpoch v s rs.lastProcessedEpoch
          + undelegRangeV histories eventsByEpoch v s rs.lastProcessedEpoch →
      (rs.σ v).shares = sharesRangeV eventsByEpoch v s0 s rs.lastProcessedEpoch →
      (s ≤ (es.foldl (processEpoch histories eventsByEpoch timestamps validators s startTs)
            rs).lastProcessedEpoch
      ∧ (es.foldl (processEpoch histories eventsByEpoch timestamps validators s startTs)
            rs).lastProcessedEpoch ≤ endB
      ∧ sumRewardsFor v (es.foldl
            (processEpoch histories eventsByEpoch timestamps validators s startTs)
            rs).results
        = stateG ((es.foldl (processEpoch histories eventsByEpoch timestamps validators s
              startTs) rs).σ v) - prev0
          - delegRangeV histories eventsByEpoch v s
              (es.foldl (processEpoch histories eventsByEpoch timestamps validators s startTs)
                rs).lastProcessedEpoch
          + undelegRangeV histories eventsByEpoch v s
              (es.foldl (processEpoch histories eventsByEpoch timestamps validators s startTs)
                rs).lastProcessedEpoch
      ∧ ((es.foldl (processEpoch histories eventsByEpoch timestamps validators s startTs)
            rs).σ v).shares
        = sharesRangeV eventsByEpoch v s0 s
            (es.foldl (processEpoch histories eventsByEpoch timestamps validators s startTs)
              rs).lastProcessedEpoch) := by
  intro es
  induction es with
  | nil =>
    intro rs _ _ h3 h4 h5 h6
    exact ⟨h3, h4, h5, h6⟩
  | cons a t ih =>
    intro rs hsort hmem hslp hlpB hsum hsh
    rw [List.foldl_cons]
    have hlpa : rs.lastProcessedEpoch ≤ a := (hmem a (List.mem_cons_self a t)).1
    have haB : a ≤ endB := (hmem a (List.mem_cons_self a t)).2
    have hsort' : List.Pairwise (· ≤ ·) t := (List.pairwise_cons.mp hsort).2
    have hax : ∀ x ∈ t, a ≤ x := (List.pairwise_cons.mp hsort).1
    match hts : timestamps a with
    | none =>
      have hpe : processEpoch histories eventsByEpoch timestamps validators s startTs rs a
          = rs := by
        unfold processEpoch
        rw [hts]
      rw [hpe]
      exact ih rs hsort' (fun x hx => ⟨le_trans hlpa (hax x hx), (hmem x
        (List.mem_cons_of_mem a hx)).2⟩) hslp hlpB hsum hsh
    | some tstamp =>
      set σ1 : String → ValidatorState :=
        applyEventsInRange histories eventsByEpoch validators rs.σ rs.lastProcessedEpoch a
        with hσ1
      set out := emitRowsForEpoch histories s startTs a tstamp validators σ1 with hout
      have hpe : processEpoch histories eventsByEpoch timestamps validators s startTs rs a
          = { σ := out.1, lastProcessedEpoch := a, results := rs.results ++ out.2 } := by
        unfold processEpoch
        rw [hts]
      rw [hpe]
      -- the event-application phase, seen from v
      have hproj : σ1 v = applyRangeV histories eventsByEpoch v (rs.σ v)
          rs.lastProcessedEpoch a :=
        applyEventsInRange_proj histories eventsByEpoch validators rs.σ
          rs.lastProcessedEpoch a v hv
      have hchar := applyRangeV_char histories eventsByEpoch v (rs.σ v)
        rs.lastProcessedEpoch a
      have hsh1 : (σ1 v).shares = sharesRangeV eventsByEpoch v s0 s a := by
        rw [hproj, hchar]
        simp only
        rw [hsh]
        exact sharesRangeV_append eventsByEpoch v s0 s rs.lastProcessedEpoch a hslp hlpa
      have hG1 : stateG (σ1 v) = stateG (rs.σ v)
          + delegRangeV histories eventsByEpoch v rs.lastProcessedEpoch a
          - undelegRangeV histories eventsByEpoch v rs.lastProcessedEpoch a := by
        rw [hproj, hchar]
        unfold stateG
        simp only
        ring
      have hsum1 : sumRewardsFor v rs.results
          = stateG (σ1 v) - prev0 - delegRangeV histories eventsByEpoch v s a
            + undelegRangeV histories eventsByEpoch v s a := by
        rw [hsum, hG1,
          ← delegRangeV_append histories eventsByEpoch v s rs.lastProcessedEpoch a hslp hlpa,
          ← undelegRangeV_append histories eventsByEpoch v s rs.lastProcessedEpoch a hslp hlpa]
        ring
      -- the emission phase, seen from v
      have hemit := emitFold_pres histories s startTs a tstamp v validators (σ1, [])
        (- stateG (σ1 v)) ((σ1 v).shares) (by simp [sumRewardsFor]) rfl
      have hsum2 : sumRewardsFor v (rs.results ++ out.2)
          = stateG (out.1 v) - prev0 - delegRangeV histories eventsByEpoch v s a
            + undelegRangeV histories eventsByEpoch v s a := by
        rw [sumRewardsFor_append, hsum1]
        have := hemit.1
        rw [hout]
        unfold emitRowsForEpoch
        omega
      have hsh2 : (out.1 v).shares = sharesRangeV eventsByEpoch v s0 s a := by
        rw [← hsh1]
        have := hemit.2
        rw [hout]
        unfold emitRowsForEpoch
        exact this
      exact ih { σ := out.1, lastProcessedEpoch := a, results := rs.results ++ out.2 }
        hsort' (fun x hx => ⟨hax x hx, (hmem x (List.mem_cons_of_mem a hx)).2⟩)
        (le_trans hslp hlpa) haB hsum2 hsh2

/-- The reward sum of a full engine run, for any granularity whose sample
list ends at `endEpoch`: provided the `endEpoch` timestamp is known, a
snapshot is located at `endEpoch`, and the validator's final share count is
nonzero, the total equals
`finalTotalValue − initialTotalValue − delegations + undelegations`. -/
theorem run_sum (histories : String → List HistoryEntry) (eventsByEpoch : Int → List Ev)
    (timestamps : Int → Option String) (validators : List String)
    (initShares : String → Int) (initEntry : String → Option HistoryEntry)
    (v : String) (s e : Int) (tEnd : String) (he : HistoryEntry) (g : String)
    (hv : v ∈ validators) (hse : s ≤ e) (hts : timestamps e = some tEnd)
    (hfind : findHistoryEntryForEpoch (histories v) e = some he)
    (hS : ¬ sharesRangeV eventsByEpoch v (initShares v) s e = 0) :
    sumRewardsFor v (fetchStakingRewardsCore histories eventsByEpoch timestamps validators
        initShares initEntry s e g)
      = calculateTotalValue (sharesRangeV eventsByEpoch v (initShares v) s e) (some he)
        - calculateTotalValue (initShares v) (initEntry v)
        - delegRangeV histories eventsByEpoch v s e
        + undelegRangeV histories eventsByEpoch v s e := by
  unfold fetchStakingRewardsCore
  set startTs : String := (match timestamps s with | some t => t | none => "") with hstartTs
  set rs0 : RunState :=
    { σ := mkInitState initShares initEntry
      lastProcessedEpoch := s
      results := [] } with hrs0
  set es : List Int := epochsToProcess s e g with hes
  have hlast : es.getLast? = some e := epochsToProcess_getLast s e g
  have hesne : es ≠ [] := by
    intro h
    rw [h] at hlast
    exact absurd hlast (by simp)
  have hsplit : es.dropLast ++ [e] = es := by
    have h1 := List.dropLast_append_getLast hesne
    have h2 : es.getLast hesne = e := by
      have := List.getLast?_eq_getLast es hesne
      rw [this] at hlast
      simpa using hlast
    rw [h2] at h1
    exact h1
  have hsorted : List.Pairwise (· < ·) es := epochsToProcess_sorted s e g
  have hmemes : ∀ x ∈ es, s ≤ x ∧ x ≤ e := epochsToProcess_mem s e hse g
  have hsortD : List.Pairwise (· ≤ ·) es.dropLast := by
    have hsub : es.dropLast.Sublist es := List.dropLast_sublist es
    exact (hsorted.sublist hsub).imp (fun h => le_of_lt h)
  have hmemD : ∀ x ∈ es.dropLast, s ≤ x ∧ x ≤ e := fun x hx =>
    hmemes x (List.mem_of_mem_dropLast hx)
  -- run the initial segment
  have hinv := processEpochs_inv histories eventsByEpoch timestamps validators s startTs v
    hv (calculateTotalValue (initShares v) (initEntry v)) (initShares v) e
    es.dropLast rs0 hsortD
    (fun x hx => ⟨(hmemD x hx).1, (hmemD x hx).2⟩) (le_refl s) hse
    (by
      show sumRewardsFor v [] = stateG (mkInitState initShares initEntry v)
        - calculateTotalValue (initShares v) (initEntry v)
        - delegRangeV histories eventsByEpoch v s s
        + undelegRangeV histories eventsByEpoch v s s
      unfold sumRewardsFor stateG mkInitState delegRangeV undelegRangeV
      rw [intRange_self]
      simp)
    (by
      show (mkInitState initShares initEntry v).shares
        = sharesRangeV eventsByEpoch v (initShares v) s s
      unfold mkInitState sharesRangeV
      rw [intRange_self]
      rfl)
  set rs1 : RunState := es.dropLast.foldl
    (processEpoch histories eventsByEpoch timestamps validators s startTs) rs0 with hrs1
  obtain ⟨hs1, h1B, hsum1, hsh1⟩ := hinv
  -- the final step at endEpoch
  have hfold : es.foldl (processEpoch histories eventsByEpoch timestamps validators s startTs)
      rs0 = processEpoch histories eventsByEpoch timestamps validators s startTs rs1 e := by
    rw [← hsplit, List.foldl_append]
    rfl
  show sumRewardsFor v
      ((es.foldl (processEpoch histories eventsByEpoch timestamps validators s startTs)
        rs0).results)
    = calculateTotalValue (sharesRangeV eventsByEpoch v (initShares v) s e) (some he)
      - calculateTotalValue (initShares v) (initEntry v)
      - delegRangeV histories eventsByEpoch v s e
      + undelegRangeV histories eventsByEpoch v s e
  rw [hfold]
  set σ1 : String → ValidatorState :=
    applyEventsInRange histories eventsByEpoch validators rs1.σ rs1.lastProcessedEpoch e
    with hσ1
  set out := emitRowsForEpoch histories s startTs e tEnd validators σ1 with hout
  have hpe : processEpoch histories eventsByEpoch timestamps validators s startTs rs1 e
      = { σ := out.1, lastProcessedEpoch := e, results := rs1.results ++ out.2 } := by
    unfold processEpoch
    rw [hts]
  rw [hpe]
  have hproj : σ1 v = applyRangeV histories eventsByEpoch v (rs1.σ v)
      rs1.lastProcessedEpoch e :=
    applyEventsInRange_proj histories eventsByEpoch validators rs1.σ
      rs1.lastProcessedEpoch e v hv
  have hchar := applyRangeV_char histories eventsByEpoch v (rs1.σ v)
    rs1.lastProcessedEpoch e
  have hshend : (σ1 v).shares = sharesRangeV eventsByEpoch v (initShares v) s e := by
    rw [hproj, hchar]
    simp only
    rw [hsh1]
    exact sharesRangeV_append eventsByEpoch v (initShares v) s rs1.lastProcessedEpoch e hs1 h1B
  have hG1 : stateG (σ1 v) = stateG (rs1.σ v)
      + delegRangeV histories eventsByEpoch v rs1.lastProcessedEpoch e
      - undelegRangeV histories eventsByEpoch v rs1.lastProcessedEpoch e := by
    rw [hproj, hchar]
    unfold stateG
    simp only
    ring
  have hsum2 : sumRewardsFor v rs1.results
      = stateG (σ1 v) - calculateTotalValue (initShares v) (initEntry v)
        - delegRangeV histories eventsByEpoch v s e
        + undelegRangeV histories eventsByEpoch v s e := by
    rw [hsum1, hG1,
      ← delegRangeV_append histories eventsByEpoch v s rs1.lastProcessedEpoch e hs1 h1B,
      ← undelegRangeV_append histories eventsByEpoch v s rs1.lastProcessedEpoch e hs1 h1B]
    ring
  have hemit := emitFold_pres histories s startTs e tEnd v validators (σ1, [])
    (- stateG (σ1 v)) ((σ1 v).shares) (by simp [sumRewardsFor]) rfl
  have hfinal : out.1 v = ⟨sharesRangeV eventsByEpoch v (initShares v) s e,
      calculateTotalValue (sharesRangeV eventsByEpoch v (initShares v) s e) (some he),
      0, 0⟩ := by
    rw [hout]
    unfold emitRowsForEpoch
    exact emitFold_final histories s startTs e tEnd v he
      (sharesRangeV eventsByEpoch v (initShares v) s e) hfind hS validators (σ1, [])
      hshend (Or.inl hv)
  have hsumout : sumRewardsFor v out.2 = stateG (out.1 v) - stateG (σ1 v) := by
    have := hemit.1
    rw [hout]
    unfold emitRowsForEpoch
    omega
  show sumRewardsFor v (rs1.results ++ out.2) = _
  rw [sumRewardsFor_append, hsum2, hsumout, hfinal]
  unfold stateG
  simp only
  ring

/-- C1 counterexample: with the same event set, snapshot data, timestamps and
reconstructed initial position, the monthly run over epochs `[0, 24]` emits
rewards summing to 100 while the yearly run emits no row at all (sum 0):
at `endEpoch` the validator has `shares = 0` and, in the yearly run only,
`prevTotalValue = 0`, so the year-granularity row is skipped by the
fully-exited-position rule while the monthly rows already booked the value
growth.  The claimed identity `sum(month) = year = finalTotalValue −
initialTotalValue` fails: `100 ≠ 0`. -/
theorem claim_C1_reconciliation_counterexample :
    sumRewardsFor "v" (fetchStakingRewardsCore cHist cEvents cTs ["v"] cInitShares
        cInitEntry 0 24 "month") = 100
    ∧ sumRewardsFor "v" (fetchStakingRewardsCore cHist cEvents cTs ["v"] cInitShares
        cInitEntry 0 24 "year") = 0
    ∧ calculateTotalValue (sharesRangeV cEvents "v" (cInitShares "v") 0 24)
          (findHistoryEntryForEpoch (cHist "v") 24)
        - calculateTotalValue (cInitShares "v") (cInitEntry "v") = 0
    ∧ ¬ sumRewardsFor "v" (fetchStakingRewardsCore cHist cEvents cTs ["v"] cInitShares
          cInitEntry 0 24 "month")
        = sumRewardsFor "v" (fetchStakingRewardsCore cHist cEvents cTs ["v"] cInitShares
          cInitEntry 0 24 "year") := by
  refine ⟨by decide, by decide, by decide, by decide⟩

/-- C1 (amended): for every event set, snapshot history, timestamp table and
initial position, and every validator `v`, the monthly reward sum equals the
yearly reward **provided** the `endEpoch` timestamp is known, a snapshot is
located at `endEpoch`, and `v`'s share count at `endEpoch` is nonzero (so the
final row is emitted in both runs); both equal
`finalTotalValue − initialTotalValue − periodDelegations +
periodUndelegations` priced over the same data.  Without the nonzero-shares
proviso the identity fails (see the counterexample). -/
theorem claim_C1_reconciliation_amended
    (histories : String → List HistoryEntry) (eventsByEpoch : Int → List Ev)
    (timestamps : Int → Option String) (validators : List String)
    (initShares : String → Int) (initEntry : String → Option HistoryEntry)
    (v : String) (s e : Int) (tEnd : String) (he : HistoryEntry)
    (hv : v ∈ validators) (hse : s ≤ e) (hts : timestamps e = some tEnd)
    (hfind : findHistoryEntryForEpoch (histories v) e = some he)
    (hS : ¬ sharesRangeV eventsByEpoch v (initShares v) s e = 0) :
    sumRewardsFor v (fetchStakingRewardsCore histories eventsByEpoch timestamps validators
        initShares initEntry s e "month")
      = sumRewardsFor v (fetchStakingRewardsCore histories eventsByEpoch timestamps
        validators initShares initEntry s e "year")
    ∧ sumRewardsFor v (fetchStakingRewardsCore histories eventsByEpoch timestamps validators
        initShares initEntry s e "year")
      = calculateTotalValue (sharesRangeV eventsByEpoch v (initShares v) s e) (some he)
        - calculateTotalValue (initShares v) (initEntry v)
        - delegRangeV histories eventsByEpoch v s e
        + undelegRangeV histories eventsByEpoch v s e := by
  have hm := run_sum histories eventsByEpoch timestamps validators initShares initEntry
    v s e tEnd he "month" hv hse hts hfind hS
  have hy := run_sum histories eventsByEpoch timestamps validators initShares initEntry
    v s e tEnd he "year" hv hse hts hfind hS
  exact ⟨hm.trans hy.symm, hy⟩

/-- Witness for the amended C1 at a concrete input. -/
theorem claim_C1_reconciliation_amended_witness :
    ("v" ∈ ["v"] ∧ (0 : Int) ≤ 24 ∧ cTs 24 = some "t"
      ∧ findHistoryEntryForEpoch (cHist "v") 24 = some ⟨15, 200, 100⟩
      ∧ ¬ sharesRangeV dEvents "v" (dInitShares "v") 0 24 = 0)
    ∧ (sumRewardsFor "v" (fetchStakingRewardsCore cHist dEvents cTs ["v"] dInitShares
          cInitEntry 0 24 "month")
        = sumRewardsFor "v" (fetchStakingRewardsCore cHist dEvents cTs ["v"] dInitShares
          cInitEntry 0 24 "year")
      ∧ sumRewardsFor "v" (fetchStakingRewardsCore cHist dEvents cTs ["v"] dInitShares
          cInitEntry 0 24 "year")
        = calculateTotalValue (sharesRangeV dEvents "v" (dInitShares "v") 0 24)
            (some ⟨15, 200, 100⟩)
          - calculateTotalValue (dInitShares "v") (cInitEntry "v")
          - delegRangeV cHist dEvents "v" 0 24
          + undelegRangeV cHist dEvents "v" 0 24) :=
  ⟨⟨by decide, by decide, rfl, by decide, by decide⟩,
    claim_C1_reconciliation_amended cHist dEvents cTs ["v"] dInitShares cInitEntry
      "v" 0 24 "t" ⟨15, 200, 100⟩ (by decide) (by decide) rfl (by decide) (by decide)⟩

/-! ## C10: row anchoring and ordering -/

theorem emitFold_rows (histories : String → List HistoryEntry) (s : Int) (ts : String)
    (E : Int) (t : String) :
    ∀ (ws : List String) (acc : (String → ValidatorState) × List RewardRow),
      ∀ r ∈ (ws.foldl (emitRowForValidator histories s ts E t) acc).2,
        r ∈ acc.2 ∨ (r.start_epoch = s ∧ r.start_timestamp = ts ∧ r.end_epoch = E) := by
  intro ws
  induction ws with
  | nil => intro acc r hr; exact Or.inl hr
  | cons w ws' ih =>
    intro acc r hr
    rw [List.foldl_cons] at hr
    rcases ih (emitRowForValidator histories s ts E t acc w) r hr with hin | hfields
    · by_cases hz : (acc.1 w).shares = 0 ∧ (acc.1 w).prevTotalValue = 0
      · rw [emitRowForValidator_skip_zero histories s ts E t acc w hz] at hin
        exact Or.inl hin
      · match hfind : findHistoryEntryForEpoch (histories w) E with
        | none =>
          rw [emitRowForValidator_skip_nosnap histories s ts E t acc w hz hfind] at hin
          exact Or.inl hin
        | some he =>
          rw [emitRowForValidator_emit histories s ts E t acc w he hz hfind] at hin
          rcases List.mem_append.mp hin with h1 | h2
          · exact Or.inl h1
          · simp only [List.mem_singleton] at h2
            subst h2
            exact Or.inr ⟨rfl, rfl, rfl⟩
    · exact Or.inr hfields

theorem emitFold_nodup (histories : String → List HistoryEntry) (s : Int) (ts : String)
    (E : Int) (t : String) :
    ∀ (ws : List String) (acc : (String → ValidatorState) × List RewardRow),
      ws.Nodup →
      List.Pairwise (fun r1 r2 => ¬ r1.validator = r2.validator) acc.2 →
      (∀ r ∈ acc.2, r.validator ∉ ws) →
      List.Pairwise (fun r1 r2 => ¬ r1.validator = r2.validator)
        ((ws.foldl (emitRowForValidator histories s ts E t) acc).2) := by
  intro ws
  induction ws with
  | nil => intro acc _ h2 _; exact h2
  | cons w ws' ih =>
    intro acc hnd h2 h3
    rw [List.foldl_cons]
    have hw : w ∉ ws' := (List.nodup_cons.mp hnd).1
    have hnd' : ws'.Nodup := (List.nodup_cons.mp hnd).2
    by_cases hz : (acc.1 w).shares = 0 ∧ (acc.1 w).prevTotalValue = 0
    · rw [emitRowForValidator_skip_zero histories s ts E t acc w hz]
      exact ih acc hnd' h2 (fun r hr => fun hm =>
        h3 r hr (List.mem_cons_of_mem w hm))
    · match hfind : findHistoryEntryForEpoch (histories w) E with
      | none =>
        rw [emitRowForValidator_skip_nosnap histories s ts E t acc w hz hfind]
        exact ih acc hnd' h2 (fun r hr => fun hm =>
          h3 r hr (List.mem_cons_of_mem w hm))
      | some he =>
        rw [emitRowForValidator_emit histories s ts E t acc w he hz hfind]
        apply ih _ hnd'
        · rw [List.pairwise_append]
          refine ⟨h2, by simp, ?_⟩
          intro r1 hr1 r2 hr2
          simp only [List.mem_singleton] at hr2
          subst hr2
          intro hval
          exact h3 r1 hr1 (by rw [hval]; exact List.mem_cons_self w ws')
        · intro r hr
          rcases List.mem_append.mp hr with h1 | h4
          · exact fun hm => h3 r h1 (List.mem_cons_of_mem w hm)
          · simp only [List.mem_singleton] at h4
            subst h4
            exact hw

theorem processEpochs_rows (histories : String → List HistoryEntry)
    (eventsByEpoch : Int → List Ev) (timestamps : Int → Option String)
    (validators : List String) (s : Int) (startTs : String)
    (hnd : validators.Nodup) :
    ∀ (es : List Int) (rs : RunState),
      List.Pairwise (· < ·) es →
      (∀ r ∈ rs.results, r.start_epoch = s ∧ r.start_timestamp = startTs) →
      List.Pairwise (fun r1 r2 => r1.validator = r2.validator → r1.end_epoch < r2.end_epoch)
        rs.results →
      (∀ r ∈ rs.results, ∀ x ∈ es, r.end_epoch < x) →
      (∀ r ∈ (es.foldl (processEpoch histories eventsByEpoch timestamps validators s startTs)
            rs).results,
          r.start_epoch = s ∧ r.start_timestamp = startTs)
      ∧ List.Pairwise (fun r1 r2 => r1.validator = r2.validator → r1.end_epoch < r2.end_epoch)
          ((es.foldl (processEpoch histories eventsByEpoch timestamps validators s startTs)
            rs).results) := by
  intro es
  induction es with
  | nil => intro rs _ h2 h3 _; exact ⟨h2, h3⟩
  | cons a t ih =>
    intro rs hsort h2 h3 h4
    rw [List.foldl_cons]
    have hsort' : List.Pairwise (· < ·) t := (List.pairwise_cons.mp hsort).2
    have hax : ∀ x ∈ t, a < x := (List.pairwise_cons.mp hsort).1
    match hts : timestamps a with
    | none =>
      have hpe : processEpoch histories eventsByEpoch timestamps validators s startTs rs a
          = rs := by
        unfold processEpoch
        rw [hts]
      rw [hpe]
      exact ih rs hsort' h2 h3 (fun r hr x hx => h4 r hr x (List.mem_cons_of_mem a hx))
    | some tstamp =>
      set σ1 : String → ValidatorState :=
        applyEventsInRange histories eventsByEpoch validators rs.σ rs.lastProcessedEpoch a
        with hσ1
      set out := emitRowsForEpoch histories s startTs a tstamp validators σ1 with hout
      have hpe : processEpoch histories eventsByEpoch timestamps validators s startTs rs a
          = { σ := out.1, lastProcessedEpoch := a, results := rs.results ++ out.2 } := by
        unfold processEpoch
        rw [hts]
      rw [hpe]
      have hB : ∀ r ∈ out.2, r.start_epoch = s ∧ r.start_timestamp = startTs
          ∧ r.end_epoch = a := by
        intro r hr
        rcases emitFold_rows histories s startTs a tstamp validators (σ1, []) r
          (by rw [hout] at hr; exact hr) with h | h
        · exact absurd h (List.not_mem_nil r)
        · exact h
      have hBnd : List.Pairwise (fun r1 r2 => ¬ r1.validator = r2.validator) out.2 := by
        rw [hout]
        exact emitFold_nodup histories s startTs a tstamp validators (σ1, []) hnd
          (by simp) (by simp)
      apply ih
      · exact hsort'
      · intro r hr
        rcases List.mem_append.mp hr with h1 | h5
        · exact h2 r h1
        · exact ⟨(hB r h5).1, (hB r h5).2.1⟩
      · show List.Pairwise _ (rs.results ++ out.2)
        rw [List.pairwise_append]
        refine ⟨h3, hBnd.imp (fun hne hval => absurd hval hne), ?_⟩
        intro r1 hr1 r2 hr2 _
        rw [(hB r2 hr2).2.2]
        exact h4 r1 hr1 a (List.mem_cons_self a t)
      · intro r hr x hx
        rcases List.mem_append.mp hr with h1 | h5
        · exact h4 r h1 x (List.mem_cons_of_mem a hx)
        · rw [(hB r h5).2.2]
          exact hax x hx

/-- C10: every emitted row carries `start_epoch` equal to the overall
period's `startEpoch` and `start_timestamp` equal to the stored timestamp of
that `startEpoch` (`""` when missing) — never the preceding sample's — and,
with distinct tracked validators, the rows of any fixed validator appear in
strictly ascending `end_epoch` order. -/
theorem claim_C10_row_invariants (histories : String → List HistoryEntry)
    (eventsByEpoch : Int → List Ev) (timestamps : Int → Option String)
    (validators : List String) (initShares : String → Int)
    (initEntry : String → Option HistoryEntry) (s e : Int) (g : String)
    (hnd : validators.Nodup) (hse : s ≤ e) :
    (∀ r ∈ fetchStakingRewardsCore histories eventsByEpoch timestamps validators initShares
        initEntry s e g,
      r.start_epoch = s
      ∧ r.start_timestamp = (match timestamps s with | some t => t | none => ""))
    ∧ List.Pairwise (fun r1 r2 => r1.validator = r2.validator → r1.end_epoch < r2.end_epoch)
        (fetchStakingRewardsCore histories eventsByEpoch timestamps validators initShares
          initEntry s e g) := by
  unfold fetchStakingRewardsCore
  exact processEpochs_rows histories eventsByEpoch timestamps validators s
    (match timestamps s with | some t => t | none => "") hnd
    (epochsToProcess s e g)
    { σ := mkInitState initShares initEntry, lastProcessedEpoch := s, results := [] }
    (epochsToProcess_sorted s e g) (by simp) (by simp) (by simp)

/-- Witness for C10 on the concrete counterexample fixture. -/
theorem claim_C10_row_invariants_witness :
    (["v"].Nodup ∧ (0 : Int) ≤ 24)
    ∧ ((∀ r ∈ fetchStakingRewardsCore cHist cEvents cTs ["v"] cInitShares cInitEntry
          0 24 "month",
        r.start_epoch = 0
        ∧ r.start_timestamp = (match cTs 0 with | some t => t | none => ""))
      ∧ List.Pairwise
          (fun r1 r2 => r1.validator = r2.validator → r1.end_epoch < r2.end_epoch)
          (fetchStakingRewardsCore cHist cEvents cTs ["v"] cInitShares cInitEntry
            0 24 "month")) :=
  ⟨⟨by decide, by decide⟩,
    claim_C10_row_invariants cHist cEvents cTs ["v"] cInitShares cInitEntry 0 24 "month"
      (by decide) (by decide)⟩

end CsvExporter

